import Mathlib

/-!
The window-arrangement engine of `src/tigerwm.c` (tigerwm).

A shallow embedding of the client list, the tiling routine, the desktop
store and the master-size operations of `tigerwm.c`, with theorems about them.

Conventions of the embedding.

* A `client *` is a `Ptr`: `none` is `NULL`, `some a` is the address `a`.
  The malloc heap is a map from addresses to live `client` records; reading
  or writing through `NULL` or through an address that holds no live record
  is a `Fault`.
* C `int` values are integers; `/` is C's truncating division (`Int.tdiv`)
  and dividing by zero is a `Fault`. Signed overflow, which C leaves
  undefined, is outside the model: the master size of every state the
  program reaches from its start through the clamps lies in `[0, 90]`.
  Where an `int` meets an `unsigned int` the conversion modulo `2^32` is
  explicit.
* A `for` loop that follows `next` links takes a step budget (`fuel`): one
  unit per client visited. A budget of at least the list length is enough.
* `tile()` only reads the engine state and issues `XMoveResizeWindow`
  requests. A handler that ends with `tile()` yields an `Outcome`: the
  engine state its own stores produced, and what that trailing `tile()` call
  does on this state, requests or fault. The call returns to its caller only
  when that `tile()` returns: `returned` is the call from entry to return, a
  fault in the trailing `tile()` included, and `exec` runs a sequence of calls
  each of which has to return. A theorem that a call returns is stated with
  `returned`; `run` follows the stores of a sequence of calls past a fault in
  `tile()` and agrees with `exec` wherever `exec` completes.
* `calloc` is taken to succeed (the other case ends the process in `die`).
* A well-formed client list is a `DList`: the cells in order from the head, each
  live, `prev` of the head and `next` of the tail `NULL`, and `x.next = y`
  exactly when `y.prev = x`. The theorems on the list handlers name the list by
  its pieces, such as `A ++ c :: B` for the client `c` between the clients `A`
  before it and `B` after it.
* The macros `DESKTOPS` and `CLEANMASK`, the table `keys[]` (all of `config.h`)
  and the Xlib lookup `XKeycodeToKeysym` are parameters.
-/

namespace TigerWM

/-- An X11 window handle (`Window`). -/
abbrev Window := Nat

/-- The address of a heap cell. -/
abbrev Addr := Nat

/-- A `client *`: `none` is `NULL`. -/
abbrev Ptr := Option Addr

/-- The record `struct client`. -/
structure client where
  next : Ptr
  prev : Ptr
  win : Window
deriving DecidableEq, Repr

/-- The record `struct desktop`. -/
structure desktop where
  master_size : Int
  mode : Int
  head : Ptr
  current : Ptr
deriving DecidableEq, Repr

/-- Ways in which a run of the C code leaves defined behaviour (or its step budget). -/
inductive Fault where
  | nullDeref
  | danglingDeref
  | divByZero
  | outOfBounds
  | outOfFuel
deriving DecidableEq, Repr

deriving instance DecidableEq for Except

/-- The malloc heap: the live `client` records by address. -/
abbrev Heap := Addr → Option client

/-- One request `XMoveResizeWindow(dis, win, x, y, width, height)`. -/
structure XMoveResizeWindow where
  win : Window
  x : Int
  y : Int
  width : Int
  height : Int
deriving DecidableEq, Repr

/-- The global variables of `tigerwm.c` that the engine works on, with the heap.
`brk` is the next address `calloc` hands out. -/
structure WM where
  heap : Heap
  brk : Addr
  current_desktop : Nat
  master_size : Int
  mode : Int
  head : Ptr
  current : Ptr
  desktops : Nat → desktop

/-- Reading `*p`. -/
def load (h : Heap) : Ptr → Except Fault client
  | none => .error .nullDeref
  | some a =>
    match h a with
    | none => .error .danglingDeref
    | some c => .ok c

/-- The heap with the cell at `a` replaced. -/
def Heap.set (h : Heap) (a : Addr) (c : Option client) : Heap :=
  fun b => if b = a then c else h b

/-- The assignment `p->next = v`. -/
def store_next (h : Heap) (p : Ptr) (v : Ptr) : Except Fault Heap := do
  let c ← load h p
  match p with
  | none => .error .nullDeref
  | some a => pure (h.set a (some { c with next := v }))

/-- The assignment `p->prev = v`. -/
def store_prev (h : Heap) (p : Ptr) (v : Ptr) : Except Fault Heap := do
  let c ← load h p
  match p with
  | none => .error .nullDeref
  | some a => pure (h.set a (some { c with prev := v }))

/-- C integer division `a / b`. -/
def cdiv (a b : Int) : Except Fault Int :=
  if b = 0 then .error .divByZero else .ok (Int.tdiv a b)

/-- The counting loop of `tile`: `for(c=head;c;c=c->next) n++;`. -/
def tile_count (h : Heap) : Nat → Ptr → Int → Except Fault Int
  | _, none, n => .ok n
  | 0, some _, _ => .error .outOfFuel
  | fuel + 1, some a, n => do
    let c ← load h (some a)
    tile_count h fuel c.next (n + 1)

/-- The placing loop of `tile`: the head gets the master rectangle, every other
client the stack rectangle at the running `stack_y`. -/
def tile_place (h : Heap) (head : Ptr)
    (master_x master_y master_width master_height stack_x stack_width stack_height : Int) :
    Nat → Ptr → Int → Except Fault (List XMoveResizeWindow)
  | _, none, _ => .ok []
  | 0, some _, _ => .error .outOfFuel
  | fuel + 1, some a, stack_y => do
    let c ← load h (some a)
    if some a = head then
      let rest ← tile_place h head master_x master_y master_width master_height
        stack_x stack_width stack_height fuel c.next stack_y
      pure (⟨c.win, master_x, master_y, master_width, master_height⟩ :: rest)
    else
      let rest ← tile_place h head master_x master_y master_width master_height
        stack_x stack_width stack_height fuel c.next (stack_y + stack_height)
      pure (⟨c.win, stack_x, stack_y, stack_width, stack_height⟩ :: rest)

/-- The function `tile()`: the requests it issues, in order. -/
def tile (fuel : Nat) (s : WM) : Except Fault (List XMoveResizeWindow) := do
  let n ← tile_count s.heap fuel s.head 0
  if n = 0 then
    pure []
  else
    let master_x : Int := 0
    let master_y : Int := 0
    let master_width ← if s.mode = 0 then cdiv (800 * s.master_size) 100 else pure 800
    let master_height ← if s.mode = 1 then cdiv (600 * s.master_size) 100 else pure 600
    let stack_x := master_width
    let stack_y : Int := 0
    let stack_width := 800 - master_width
    let stack_height ← cdiv 600 (n - 1)
    tile_place s.heap s.head master_x master_y master_width master_height
      stack_x stack_width stack_height fuel s.head stack_y

/-- What a handler that ends with `tile()` does: the engine state after the
handler's own stores, and what the trailing `tile()` does on that state. When
`tiled` is a fault the call does not return: `returned` is the call as a whole. -/
structure Outcome where
  state : WM
  tiled : Except Fault (List XMoveResizeWindow)

/-- Run the trailing `tile()` of a handler and record what it does, a fault
included. -/
def retile (fuel : Nat) (s : WM) : Outcome := ⟨s, tile fuel s⟩

/-- `Chain h p l`: following `next` from `p` visits exactly the live cells `l`
and then reaches `NULL`. -/
def Chain (h : Heap) : Ptr → List Addr → Prop
  | p, [] => p = none
  | p, a :: l => p = some a ∧
    match h a with
    | none => False
    | some c => Chain h c.next l

instance Chain.decide (h : Heap) : (p : Ptr) → (l : List Addr) → Decidable (Chain h p l)
  | p, [] => inferInstanceAs (Decidable (p = none))
  | p, a :: l =>
    if hp : p = some a then
      match hc : h a with
      | none => isFalse (by simp [Chain, hc])
      | some c =>
        match Chain.decide h c.next l with
        | isTrue ht => isTrue (by simp [Chain, hc, hp, ht])
        | isFalse hf => isFalse (by simp [Chain, hc, hf])
    else isFalse (by simp [Chain, hp])

/-- The window handle stored at address `a` (0 when the cell is not live). -/
def winOf (h : Heap) (a : Addr) : Window :=
  match h a with
  | none => 0
  | some c => c.win

/-- A heap given by the list of its cells, cell `i` at address `i`. -/
def heapOf (cs : List client) : Heap := fun a => cs[a]?

/-- The loop `for(t=p;t->next;t=t->next);`: the last client of the list at `p`. -/
def last_client (h : Heap) : Nat → Ptr → Except Fault Ptr
  | 0, t => do
    let c ← load h t
    if c.next = none then pure t else .error .outOfFuel
  | fuel + 1, t => do
    let c ← load h t
    if c.next = none then pure t else last_client h fuel c.next

/-- A call `calloc(1, sizeof(client))` that succeeds: a fresh zeroed cell. -/
def calloc (s : WM) : Addr × WM :=
  (s.brk, { s with heap := s.heap.set s.brk (some ⟨none, none, 0⟩), brk := s.brk + 1 })

/-- The function `add_window(w)`. -/
def add_window (fuel : Nat) (s : WM) (w : Window) : Except Fault WM := do
  let (c, s) := calloc s
  if s.head = none then
    let h := s.heap.set c (some ⟨none, none, w⟩)
    pure { s with heap := h, head := some c, current := some c }
  else
    let t ← last_client s.heap fuel s.head
    let h := s.heap.set c (some ⟨none, t, w⟩)
    let h ← store_next h t (some c)
    pure { s with heap := h, current := some c }

/-- The two statements `if(c->prev) c->prev->next = c->next;
if(c->next) c->next->prev = c->prev;`. -/
def unlink (h : Heap) (p : Ptr) : Except Fault Heap := do
  let c ← load h p
  let h ← if c.prev ≠ none then store_next h c.prev c.next else pure h
  let c ← load h p
  if c.next ≠ none then store_prev h c.next c.prev else pure h

/-- The first block of `remove_window` and `destroynotify`:
`if(current && w == current->win) { ... }`. -/
def step_current (s : WM) (w : Window) : Except Fault WM :=
  if s.current = none then pure s
  else do
    let cur ← load s.heap s.current
    if w = cur.win then
      if cur.prev ≠ none then pure { s with current := cur.prev }
      else if cur.next ≠ none then pure { s with current := cur.next }
      else pure { s with current := none }
    else pure s

/-- The loop `for(c=head;c;c=c->next) { if(c->win == w) { ...; free(c); break; } }`
of `remove_window`, entered at `c`. -/
def remove_scan (w : Window) : Nat → WM → Ptr → Except Fault WM
  | _, s, none => .ok s
  | 0, _, some _ => .error .outOfFuel
  | fuel + 1, s, some a => do
    let c ← load s.heap (some a)
    if c.win = w then
      let h ← unlink s.heap (some a)
      let c ← load h (some a)
      let s := { s with heap := h }
      let s := if some a = s.head then { s with head := c.next } else s
      pure { s with heap := s.heap.set a none }
    else
      remove_scan w fuel s c.next

/-- The function `remove_window(w)`. -/
def remove_window (fuel : Nat) (s : WM) (w : Window) : Except Fault Outcome := do
  if s.head = none then
    pure ⟨s, .ok []⟩
  else
    let s ← step_current s w
    let s ← remove_scan w fuel s s.head
    let s := if s.head = none then { s with current := none } else s
    pure (retile fuel s)

/-- The handler `destroynotify(e)`, with `w` the window of the event. Its body is
that of `remove_window`, with a counter `i` that is never read. -/
def destroynotify (fuel : Nat) (s : WM) (w : Window) : Except Fault Outcome := do
  if s.head = none then
    pure ⟨s, .ok []⟩
  else
    let s ← step_current s w
    let s ← remove_scan w fuel s s.head
    let s := if s.head = none then { s with current := none } else s
    pure (retile fuel s)

/-- The windows a loop `for(c=p;c;c=c->next) f(dis,c->win);` passes to `f`. -/
def windows_from (h : Heap) : Nat → Ptr → Except Fault (List Window)
  | _, none => .ok []
  | 0, some _ => .error .outOfFuel
  | fuel + 1, some a => do
    let c ← load h (some a)
    let rest ← windows_from h fuel c.next
    pure (c.win :: rest)

/-- The conversion of an `int` to `unsigned int`. -/
def to_unsigned (i : Int) : Nat := (i % 4294967296).toNat

/-- An index into `desktops[10]`. -/
def desktop_index (i : Int) : Except Fault Nat :=
  if 0 ≤ i ∧ i < 10 then .ok i.toNat else .error .outOfBounds

/-- The array `ds` with element `k` replaced. -/
def set_desktop (ds : Nat → desktop) (k : Nat) (d : desktop) : Nat → desktop :=
  fun j => if j = k then d else ds j

/-- The function `change_desktop(arg)` with `arg.i = i`. The unmap and map loops
are walked (they fault on a broken list); their requests are not recorded. -/
def change_desktop (fuel : Nat) (s : WM) (i : Int) : Except Fault Outcome := do
  if to_unsigned i = s.current_desktop then
    pure ⟨s, .ok []⟩
  else
    let _ ← windows_from s.heap fuel s.head
    let cd ← desktop_index s.current_desktop
    let ds := set_desktop s.desktops cd ⟨s.master_size, s.mode, s.head, s.current⟩
    let t ← desktop_index (to_unsigned i)
    let s := { s with desktops := ds, current_desktop := t, head := (ds t).head,
                      current := (ds t).current, master_size := (ds t).master_size,
                      mode := (ds t).mode }
    let _ ← windows_from s.heap fuel s.head
    pure (retile fuel s)

/-- The block `// Add client to desktop` of `client_to_desktop`: `t` is `arg.i`,
`cd` is `current_desktop`, `tmp` the client being moved. -/
def client_to_desktop_add (fuel : Nat) (s : WM) (t cd : Nat) (tmp : Ptr) : Except Fault WM := do
  let ds := set_desktop s.desktops t { s.desktops t with master_size := s.master_size }
  let ds := set_desktop ds t { ds t with mode := s.mode }
  let s := { s with desktops := ds }
  if (s.desktops t).head = none then
    let ds := set_desktop s.desktops t { s.desktops t with head := tmp }
    let ds := set_desktop ds t { ds t with current := tmp }
    let c ← load s.heap tmp
    let ds := set_desktop ds cd { ds cd with head := c.next }
    pure { s with desktops := ds, current := c.next }
  else
    let s := { s with current := (s.desktops t).current }
    let ds := set_desktop s.desktops t { s.desktops t with current := tmp }
    let s := { s with desktops := ds, current := (ds cd).head }
    let last ← last_client s.heap fuel s.current
    let s := { s with current := last }
    let h ← store_next s.heap s.current tmp
    let h ← store_prev h tmp s.current
    pure { s with heap := h }

/-- The block `// Remove client from current desktop` of `client_to_desktop`. -/
def client_to_desktop_remove (s : WM) (tmp : Ptr) : Except Fault WM := do
  let h ← unlink s.heap tmp
  let s := { s with heap := h }
  let s ← if tmp = s.head then do
      let c ← load s.heap tmp
      pure { s with head := c.next }
    else pure s
  let s := if tmp = s.current then { s with current := s.head } else s
  pure s

/-- The block `// Prepare client for new desktop` of `client_to_desktop`, up to `tile()`. -/
def client_to_desktop_prepare (s : WM) (cd : Nat) (tmp : Ptr) : Except Fault WM := do
  let h ← store_next s.heap tmp none
  let h ← store_prev h tmp none
  pure { s with heap := h, current := (s.desktops cd).current }

/-- The function `client_to_desktop(arg)` with `arg.i = i`. -/
def client_to_desktop (fuel : Nat) (s : WM) (i : Int) : Except Fault Outcome := do
  let tmp := s.current
  if to_unsigned i = s.current_desktop ∨ s.current = none then
    pure ⟨s, .ok []⟩
  else
    let t ← desktop_index i
    let cd ← desktop_index s.current_desktop
    let s ← client_to_desktop_add fuel s t cd tmp
    let s ← client_to_desktop_remove s tmp
    let s ← client_to_desktop_prepare s cd tmp
    pure (retile fuel s)

/-- The function `resizemaster(arg)` with `arg.i = i`. -/
def resizemaster (fuel : Nat) (s : WM) (i : Int) : Outcome :=
  if i = 0 then
    ⟨s, .ok []⟩
  else
    let s := { s with master_size := s.master_size + i }
    let s := if s.master_size < 10 then { s with master_size := 10 } else s
    let s := if s.master_size > 90 then { s with master_size := 90 } else s
    retile fuel s

/-- The function `increase()`. -/
def increase (fuel : Nat) (s : WM) : Outcome :=
  if s.master_size < 80 then
    retile fuel { s with master_size := s.master_size + 10 }
  else
    ⟨s, .ok []⟩

/-- The function `decrease()`. -/
def decrease (fuel : Nat) (s : WM) : Outcome :=
  if s.master_size > 50 then
    retile fuel { s with master_size := s.master_size - 10 }
  else
    ⟨s, .ok []⟩

/-- The values C gives the engine's static variables before `main` runs. -/
def startup : WM where
  heap := fun _ => none
  brk := 0
  current_desktop := 0
  master_size := 0
  mode := 0
  head := none
  current := none
  desktops := fun _ => ⟨0, 0, none, none⟩

/-- The rectangle the specification gives the client at position `k` (0 is the
head) of a list of `n` clients, for master size `m`; `w` is its window. -/
def spec_rect (m mode : Int) (n k : Nat) (w : Window) : XMoveResizeWindow :=
  let master_width : Int := if mode = 0 then Int.tdiv (800 * m) 100 else 800
  if k = 0 then
    if mode = 0 then ⟨w, 0, 0, Int.tdiv (800 * m) 100, 600⟩
    else ⟨w, 0, 0, 800, Int.tdiv (600 * m) 100⟩
  else
    ⟨w, master_width, ((k : Int) - 1) * Int.tdiv 600 ((n : Int) - 1),
      800 - master_width, Int.tdiv 600 ((n : Int) - 1)⟩

/-- The rectangles the specification gives the windows `ws`, the first of them
at position `k`. -/
def spec_rects (m mode : Int) (n : Nat) : Nat → List Window → List XMoveResizeWindow
  | _, [] => []
  | k, w :: ws => spec_rect m mode n k w :: spec_rects m mode n (k + 1) ws

/-- The heights of the stack rectangles: those of all requests but the first. -/
def stack_heights (rs : List XMoveResizeWindow) : List Int :=
  rs.tail.map (fun r => r.height)

/-- The bottom edge `y + height` of the last stack rectangle. -/
def stack_bottom (rs : List XMoveResizeWindow) : Option Int :=
  rs.tail.getLast?.map (fun r => r.y + r.height)

/-- A client list of `n` cells at addresses `0 .. n-1`, cell `i` holding window `i + 1`. -/
def cells (n : Nat) : List client :=
  (List.range n).map fun i =>
    ⟨if i + 1 < n then some (i + 1) else none, if i = 0 then none else some (i - 1), i + 1⟩

/-- A state whose active list holds the `n` clients of `cells n`, the last one
current, with master size `m` in mode `mode`. -/
def listed (n : Nat) (m mode : Int) : WM :=
  { startup with
    heap := heapOf (cells n)
    brk := n
    head := if n = 0 then none else some 0
    current := if n = 0 then none else some (n - 1)
    master_size := m
    mode := mode }

/-- A call of one of the engine's entry points. -/
inductive Call where
  | add_window (w : Window)
  | remove_window (w : Window)
  | destroynotify (w : Window)
  | change_desktop (i : Int)
  | client_to_desktop (i : Int)
  | resizemaster (i : Int)
  | increase
  | decrease
deriving DecidableEq, Repr

/-- The engine state the stores of one call leave. What the trailing `tile()` of
the call does, a division by zero included, is in its `Outcome` and is not looked
at here; `Call.exec` is the call as the program runs it. -/
def Call.run (fuel : Nat) (s : WM) : Call → Except Fault WM
  | .add_window w => TigerWM.add_window fuel s w
  | .remove_window w => Outcome.state <$> TigerWM.remove_window fuel s w
  | .destroynotify w => Outcome.state <$> TigerWM.destroynotify fuel s w
  | .change_desktop i => Outcome.state <$> TigerWM.change_desktop fuel s i
  | .client_to_desktop i => Outcome.state <$> TigerWM.client_to_desktop fuel s i
  | .resizemaster i => pure (TigerWM.resizemaster fuel s i).state
  | .increase => pure (TigerWM.increase fuel s).state
  | .decrease => pure (TigerWM.decrease fuel s).state

/-- The engine state the stores of a sequence of calls leave; `exec` is the sequence
as the program runs it. -/
def run (fuel : Nat) : WM → List Call → Except Fault WM
  | s, [] => .ok s
  | s, c :: cs => do
    let s' ← c.run fuel s
    run fuel s' cs

/-- A printable picture of a state: the working variables, the heap cells at the
addresses `0 .. brk-1`, and the saved slots of desktops 0 and 1. -/
structure View where
  current_desktop : Nat
  master_size : Int
  mode : Int
  head : Ptr
  current : Ptr
  cells : List (Option client)
  slots : List desktop
deriving DecidableEq, Repr

/-- The picture of the state `s`. -/
def WM.view (s : WM) : View :=
  ⟨s.current_desktop, s.master_size, s.mode, s.head, s.current,
    (List.range s.brk).map s.heap, (List.range 2).map s.desktops⟩

/-- What an observer `f` sees of the state the stores of a sequence of calls from
`startup` leave (`setup()` stores in the desktop slots the values they have in
`startup`). -/
def observe {α : Type} (fuel : Nat) (cs : List Call) (f : WM → α) : Except Fault α :=
  f <$> run fuel startup cs

/-- Reading `p->next`. -/
def get_next (h : Heap) (p : Ptr) : Except Fault Ptr := do
  let c ← load h p
  pure c.next

/-- Reading `p->prev`. -/
def get_prev (h : Heap) (p : Ptr) : Except Fault Ptr := do
  let c ← load h p
  pure c.prev

/-- The loop `// Init desktops` of `setup()`, with `k` rounds to go at index `i`. -/
def setup_loop : Nat → Nat → WM → Except Fault WM
  | 0, _, s => .ok s
  | k + 1, i, s => do
    let j ← desktop_index i
    let s := { s with desktops := set_desktop s.desktops j ⟨s.master_size, s.mode, none, none⟩ }
    setup_loop k (i + 1) s

/-- What `setup()` does to the engine state: `for(i=0;i<DESKTOPS;i++) { ... }`.
`DESKTOPS` is a macro of `config.h`. The calls that open the display, set the root
window attributes and grab the keys touch no engine variable. -/
def setup (DESKTOPS : Nat) (s : WM) : Except Fault WM :=
  setup_loop DESKTOPS 0 s

/-- The function `next_win()`. -/
def next_win (fuel : Nat) (s : WM) : Except Fault Outcome := do
  if s.current = none then
    pure (retile fuel { s with current := s.head })
  else
    let n ← get_next s.heap s.current
    if n = none then
      pure (retile fuel { s with current := s.head })
    else
      let n ← get_next s.heap s.current
      pure (retile fuel { s with current := n })

/-- The function `prev_win()`; the loop `for(current=head;current->next;...)` is
`last_client` from `head`. -/
def prev_win (fuel : Nat) (s : WM) : Except Fault Outcome := do
  if s.current = none then
    let t ← last_client s.heap fuel s.head
    pure (retile fuel { s with current := t })
  else
    let p ← get_prev s.heap s.current
    if p = none then
      let t ← last_client s.heap fuel s.head
      pure (retile fuel { s with current := t })
    else
      let p ← get_prev s.heap s.current
      pure (retile fuel { s with current := p })

/-- The function `swap_master()`. -/
def swap_master (fuel : Nat) (s : WM) : Except Fault Outcome := do
  if s.head = none ∨ s.current = none ∨ s.head = s.current then
    pure ⟨s, .ok []⟩
  else
    let c := s.current
    let h ← unlink s.heap c
    let h ← store_next h c s.head
    let h ← store_prev h c none
    let h ← store_prev h s.head c
    pure (retile fuel { s with heap := h, head := c })

/-- The first inner `if` of `move_up`:
`if(c->next) { c->prev->next = c->next; c->next->prev = c->prev; }
else { c->prev->next = NULL; }`. -/
def move_up_detach (h : Heap) (c : Ptr) : Except Fault Heap := do
  let cn ← get_next h c
  if cn ≠ none then
    let cp ← get_prev h c
    let cn ← get_next h c
    let h ← store_next h cp cn
    let cn ← get_next h c
    let cp ← get_prev h c
    store_prev h cn cp
  else
    let cp ← get_prev h c
    store_next h cp none

/-- The second inner `if` of `move_up`:
`if(c->prev->prev) { c->prev->prev->next = c; c->next = c->prev;
c->prev = c->prev->prev; c->next->prev = c; }
else { c->next = head; c->prev = NULL; head->prev = c; head = c; }`. -/
def move_up_attach (s : WM) (c : Ptr) : Except Fault WM := do
  let cp ← get_prev s.heap c
  let cpp ← get_prev s.heap cp
  if cpp ≠ none then
    let cp ← get_prev s.heap c
    let cpp ← get_prev s.heap cp
    let h ← store_next s.heap cpp c
    let cp ← get_prev h c
    let h ← store_next h c cp
    let cp ← get_prev h c
    let cpp ← get_prev h cp
    let h ← store_prev h c cpp
    let cn ← get_next h c
    let h ← store_prev h cn c
    pure { s with heap := h }
  else
    let h ← store_next s.heap c s.head
    let h ← store_prev h c none
    let h ← store_prev h s.head c
    pure { s with heap := h, head := c }

/-- The function `move_up()`. -/
def move_up (fuel : Nat) (s : WM) : Except Fault Outcome := do
  if s.current = none then
    pure ⟨s, .ok []⟩
  else
    let hn ← get_next s.heap s.head
    if hn = none then
      pure ⟨s, .ok []⟩
    else
      let c := s.current
      let cp ← get_prev s.heap c
      if cp ≠ none then
        let h ← move_up_detach s.heap c
        let s ← move_up_attach { s with heap := h } c
        pure (retile fuel s)
      else
        pure (retile fuel s)

/-- The first inner `if` of `move_down`:
`if(c->prev) { c->prev->next = c->next; c->next->prev = c->prev; }
else { head = c->next; c->next->prev = NULL; }`. -/
def move_down_detach (s : WM) (c : Ptr) : Except Fault WM := do
  let cp ← get_prev s.heap c
  if cp ≠ none then
    let cp ← get_prev s.heap c
    let cn ← get_next s.heap c
    let h ← store_next s.heap cp cn
    let cn ← get_next h c
    let cp ← get_prev h c
    let h ← store_prev h cn cp
    pure { s with heap := h }
  else
    let cn ← get_next s.heap c
    let s := { s with head := cn }
    let cn ← get_next s.heap c
    let h ← store_prev s.heap cn none
    pure { s with heap := h }

/-- The second inner `if` of `move_down`:
`if(c->next->next) { c->next->next->prev = c; c->prev = c->next;
c->next = c->next->next; c->prev->next = c; }
else { c->next->next = c; c->prev = c->next; c->next = NULL; }`. -/
def move_down_attach (h : Heap) (c : Ptr) : Except Fault Heap := do
  let cn ← get_next h c
  let cnn ← get_next h cn
  if cnn ≠ none then
    let cn ← get_next h c
    let cnn ← get_next h cn
    let h ← store_prev h cnn c
    let cn ← get_next h c
    let h ← store_prev h c cn
    let cn ← get_next h c
    let cnn ← get_next h cn
    let h ← store_next h c cnn
    let cp ← get_prev h c
    store_next h cp c
  else
    let cn ← get_next h c
    let h ← store_next h cn c
    let cn ← get_next h c
    let h ← store_prev h c cn
    store_next h c none

/-- The function `move_down()`. -/
def move_down (fuel : Nat) (s : WM) : Except Fault Outcome := do
  if s.current = none then
    pure ⟨s, .ok []⟩
  else
    let hn ← get_next s.heap s.head
    if hn = none then
      pure ⟨s, .ok []⟩
    else
      let c := s.current
      let cn ← get_next s.heap c
      if cn ≠ none then
        let s ← move_down_detach s c
        let h ← move_down_attach s.heap c
        pure (retile fuel { s with heap := h })
      else
        pure (retile fuel s)

/-- One entry of the table `keys[]` (`struct key`); the operations work on a state
of type `σ` and take an argument of type `α`. A `NULL` function is `none`. -/
structure Key (α σ : Type) where
  mod : Nat
  keysym : Nat
  function : Option (α → σ → Except Fault σ)
  arg : α

/-- The fields of an `XKeyEvent` that `keypress` reads. -/
structure XKeyEvent where
  keycode : Nat
  state : Nat
deriving DecidableEq, Repr

/-- The loop of `keypress` over the table, for the key symbol `keysym` and the
modifier state `state` of the event. `CLEANMASK` is a macro of `config.h`. -/
def keypress_loop {α σ : Type} (CLEANMASK : Nat → Nat) (keysym state : Nat) :
    List (Key α σ) → σ → Except Fault σ
  | [], s => .ok s
  | k :: ks, s =>
    if keysym = k.keysym ∧ CLEANMASK k.mod = CLEANMASK state then
      match k.function with
      | some f => do
        let s ← f k.arg s
        keypress_loop CLEANMASK keysym state ks s
      | none => keypress_loop CLEANMASK keysym state ks s
    else
      keypress_loop CLEANMASK keysym state ks s

/-- The handler `keypress(e)`. `XKeycodeToKeysym` is the Xlib lookup, `keys` the
table of `config.h`; the cast `(KeyCode)` keeps the low eight bits. -/
def keypress {α σ : Type} (CLEANMASK : Nat → Nat) (XKeycodeToKeysym : Nat → Nat)
    (keys : List (Key α σ)) (e : XKeyEvent) (s : σ) : Except Fault σ :=
  keypress_loop CLEANMASK (XKeycodeToKeysym (e.keycode % 256)) e.state keys s

/-- The entries of the table that an event with key symbol `keysym` and modifier
state `state` matches: the same key symbol and the same clean-masked modifiers. -/
def matching {α σ : Type} (CLEANMASK : Nat → Nat) (keysym state : Nat)
    (keys : List (Key α σ)) : List (Key α σ) :=
  keys.filter fun k => decide (keysym = k.keysym ∧ CLEANMASK k.mod = CLEANMASK state)

/-- The operations of the entries `ks`, each with its argument, in table order; an
entry whose function is `NULL` has none. -/
def bound_ops {α σ : Type} (ks : List (Key α σ)) : List (σ → Except Fault σ) :=
  ks.filterMap fun k => k.function.map fun f => f k.arg

/-- Invoking operations one after the other. -/
def invoke_all {σ : Type} : List (σ → Except Fault σ) → σ → Except Fault σ
  | [], s => .ok s
  | f :: fs, s => do
    let s ← f s
    invoke_all fs s

/-- A table with the chord (modifier 8, key symbol 100) bound twice, a binding of
another key, and an entry on the chord with no function; each operation writes its
argument to a log. -/
def logging_keys : List (Key Nat (List Nat)) :=
  [⟨8, 100, some fun a s => .ok (s ++ [a]), 1⟩,
   ⟨8, 101, some fun a s => .ok (s ++ [a]), 2⟩,
   ⟨8, 100, some fun a s => .ok (s ++ [a]), 3⟩,
   ⟨8, 100, none, 4⟩]

/-- `Seg h pv p l q`: following `next` from `p` visits exactly the live cells `l`
and then arrives at `q`; the first of them has `prev = pv`, and each later one has
its predecessor in `l` as `prev`. -/
def Seg (h : Heap) : Ptr → Ptr → List Addr → Ptr → Prop
  | _, p, [], q => p = q
  | pv, p, a :: l, q => p = some a ∧
    match h a with
    | none => False
    | some c => c.prev = pv ∧ Seg h (some a) c.next l q

instance Seg.decide (h : Heap) :
    (pv p : Ptr) → (l : List Addr) → (q : Ptr) → Decidable (Seg h pv p l q)
  | _, p, [], q => inferInstanceAs (Decidable (p = q))
  | pv, p, a :: l, q =>
    if hp : p = some a then
      match hc : h a with
      | none => isFalse (by simp [Seg, hc])
      | some c =>
        if hv : c.prev = pv then
          match Seg.decide h (some a) c.next l q with
          | isTrue ht => isTrue (by simp [Seg, hc, hp, hv, ht])
          | isFalse hf => isFalse (by simp [Seg, hc, hf])
        else isFalse (by simp [Seg, hc, hv])
    else isFalse (by simp [Seg, hp])

/-- A well-formed doubly linked list: the cells `l` in order from `p`, the head
with no predecessor, the tail with no successor, `x.next = y` exactly when
`y.prev = x`. -/
def DList (h : Heap) (p : Ptr) (l : List Addr) : Prop := Seg h none p l none

instance DList.decide (h : Heap) (p : Ptr) (l : List Addr) : Decidable (DList h p l) :=
  Seg.decide h none p l none

/-- The last cell of `l`, or `pv` when `l` is empty. -/
def lastPtr : Ptr → List Addr → Ptr
  | pv, [] => pv
  | _, a :: l => lastPtr (some a) l

/-- The first cell of `l`, or `q` when `l` is empty. -/
def firstPtr : List Addr → Ptr → Ptr
  | [], q => q
  | a :: _, _ => some a

/-- A handler call as its caller sees it: the state the handler returns with. The
call returns when its own stores pass and its trailing `tile()` returns; a fault in
either ends the process, and the call yields that fault. -/
def returned (r : Except Fault Outcome) : Except Fault WM := do
  let o ← r
  let _ ← o.tiled
  pure o.state

/-- One call of an entry point, from entry to return: a fault in the trailing
`tile()` of the call is a fault of the call. -/
def Call.exec (fuel : Nat) (s : WM) : Call → Except Fault WM
  | .add_window w => TigerWM.add_window fuel s w
  | .remove_window w => returned (TigerWM.remove_window fuel s w)
  | .destroynotify w => returned (TigerWM.destroynotify fuel s w)
  | .change_desktop i => returned (TigerWM.change_desktop fuel s i)
  | .client_to_desktop i => returned (TigerWM.client_to_desktop fuel s i)
  | .resizemaster i => returned (.ok (TigerWM.resizemaster fuel s i))
  | .increase => returned (.ok (TigerWM.increase fuel s))
  | .decrease => returned (.ok (TigerWM.decrease fuel s))

/-- A sequence of calls as the program runs it: each call has to return before the
next one starts, and the first fault ends the sequence. -/
def exec (fuel : Nat) : WM → List Call → Except Fault WM
  | s, [] => .ok s
  | s, c :: cs => do
    let s' ← c.exec fuel s
    exec fuel s' cs

/-- The engine state after `add_window(1); add_window(2); add_window(3);
client_to_desktop(1)` from `startup`: W1 and W2 on desktop 0, the active one, and W3
alone on desktop 1. -/
def parked : WM :=
  { startup with
    heap := heapOf [⟨some 1, none, 1⟩, ⟨none, some 0, 2⟩, ⟨none, none, 3⟩]
    brk := 3
    head := some 0
    current := none
    desktops := set_desktop startup.desktops 1 ⟨0, 0, some 2, some 2⟩ }

/-- The engine state after `add_window(1); add_window(2); change_desktop(1);
add_window(3); add_window(4); resizemaster(30); change_desktop(0); resizemaster(70)`
from `startup`: W1 and W2 on desktop 0, the active one, with master size 70; W3 and
W4 on desktop 1, saved with master size 30. -/
def two_desktops : WM :=
  { startup with
    heap := heapOf
      [⟨some 1, none, 1⟩, ⟨none, some 0, 2⟩, ⟨some 3, none, 3⟩, ⟨none, some 2, 4⟩]
    brk := 4
    master_size := 70
    head := some 0
    current := some 1
    desktops := set_desktop (set_desktop startup.desktops 0 ⟨0, 0, some 0, some 1⟩) 1
      ⟨30, 0, some 2, some 3⟩ }

/-! ## Theorems -/

/-! ### Lemmas on chains, the loops and the blocks of `client_to_desktop` -/

theorem Chain.nil_iff {h : Heap} {p : Ptr} : Chain h p [] ↔ p = none := by
  simp [Chain]

theorem Chain.cons_iff {h : Heap} {p : Ptr} {a : Addr} {l : List Addr} :
    Chain h p (a :: l) ↔ p = some a ∧ ∃ c, h a = some c ∧ Chain h c.next l := by
  simp only [Chain]
  cases hc : h a <;> simp

theorem Chain.unique {h : Heap} : ∀ {l₁ l₂ : List Addr} {p : Ptr},
    Chain h p l₁ → Chain h p l₂ → l₁ = l₂
  | [], [], _, _, _ => rfl
  | [], b :: l₂, p, h₁, h₂ => by
    rw [Chain.nil_iff] at h₁
    rw [Chain.cons_iff] at h₂
    simp [h₁] at h₂
  | a :: l₁, [], p, h₁, h₂ => by
    rw [Chain.nil_iff] at h₂
    rw [Chain.cons_iff] at h₁
    simp [h₂] at h₁
  | a :: l₁, b :: l₂, p, h₁, h₂ => by
    rw [Chain.cons_iff] at h₁ h₂
    obtain ⟨hp₁, c₁, hc₁, ht₁⟩ := h₁
    obtain ⟨hp₂, c₂, hc₂, ht₂⟩ := h₂
    have hab : a = b := by rw [hp₁] at hp₂; exact Option.some.inj hp₂
    subst hab
    rw [hc₁] at hc₂
    cases hc₂
    rw [Chain.unique ht₁ ht₂]

/-- From any member of a chain the rest of the chain is a chain, and no longer. -/
theorem Chain.from_mem {h : Heap} : ∀ {l : List Addr} {p : Ptr} {a : Addr},
    Chain h p l → a ∈ l → ∃ l', Chain h (some a) l' ∧ l'.length ≤ l.length
  | [], _, _, _, ha => by simp at ha
  | b :: l, p, a, hl, ha => by
    by_cases hab : a = b
    · subst hab
      have hl' := hl
      rw [Chain.cons_iff] at hl'
      exact ⟨a :: l, by rw [← hl'.1]; exact hl, le_refl _⟩
    · have hmem : a ∈ l := by
        rcases List.mem_cons.mp ha with h1 | h1
        · exact absurd h1 hab
        · exact h1
      rw [Chain.cons_iff] at hl
      obtain ⟨_, c, _, ht⟩ := hl
      obtain ⟨l', hl', hlen⟩ := Chain.from_mem ht hmem
      exact ⟨l', hl', by simp; omega⟩

/-- The first cell of a chain does not occur again in it. -/
theorem Chain.head_not_mem {h : Heap} {p : Ptr} {a : Addr} {l : List Addr}
    (hl : Chain h p (a :: l)) : a ∉ l := by
  intro ha
  have hl' := hl
  rw [Chain.cons_iff] at hl'
  obtain ⟨hp, c, hc, ht⟩ := hl'
  obtain ⟨l', hl'', hlen⟩ := Chain.from_mem ht ha
  rw [hp] at hl
  have := Chain.unique hl hl''
  rw [← this] at hlen
  simp at hlen

theorem winOf_eq {h : Heap} {a : Addr} {c : client} (hc : h a = some c) : winOf h a = c.win := by
  simp [winOf, hc]

theorem tile_count_chain {h : Heap} : ∀ {l : List Addr} {p : Ptr} {fuel : Nat} (n : Int),
    Chain h p l → l.length ≤ fuel → tile_count h fuel p n = .ok (n + l.length)
  | [], p, fuel, n, hl, _ => by
    rw [Chain.nil_iff] at hl
    subst hl
    cases fuel <;> simp [tile_count]
  | a :: l, p, 0, n, _, hf => by simp at hf
  | a :: l, p, fuel + 1, n, hl, hf => by
    rw [Chain.cons_iff] at hl
    obtain ⟨hp, c, hc, ht⟩ := hl
    subst hp
    have hf' : l.length ≤ fuel := by simpa using hf
    simp only [tile_count, load, hc]
    show tile_count h fuel c.next (n + 1) = _
    rw [tile_count_chain (n + 1) ht hf']
    simp only [List.length_cons, Nat.cast_add, Nat.cast_one]
    congr 1
    ring

/-- The placing loop on the clients after the head: the stack rectangles. -/
theorem tile_place_stack {h : Heap} {head : Ptr} (m mode : Int) (n : Nat) (mh : Int) :
    ∀ {l : List Addr} {p : Ptr} {fuel : Nat} (k : Nat),
    Chain h p l → (∀ a ∈ l, some a ≠ head) → l.length ≤ fuel → 1 ≤ k →
    tile_place h head 0 0 (if mode = 0 then Int.tdiv (800 * m) 100 else 800) mh
      (if mode = 0 then Int.tdiv (800 * m) 100 else 800)
      (800 - (if mode = 0 then Int.tdiv (800 * m) 100 else 800))
      (Int.tdiv 600 ((n : Int) - 1)) fuel p (((k : Int) - 1) * Int.tdiv 600 ((n : Int) - 1))
      = .ok (spec_rects m mode n k (l.map (winOf h)))
  | [], p, fuel, k, hl, _, _, _ => by
    rw [Chain.nil_iff] at hl
    subst hl
    cases fuel <;> simp [tile_place, spec_rects]
  | a :: l, p, 0, k, _, _, hf, _ => by simp at hf
  | a :: l, p, fuel + 1, k, hl, hne, hf, hk => by
    rw [Chain.cons_iff] at hl
    obtain ⟨hp, c, hc, ht⟩ := hl
    subst hp
    have hf' : l.length ≤ fuel := by simpa using hf
    have hne' : ∀ b ∈ l, some b ≠ head := fun b hb => hne b (List.mem_cons_of_mem _ hb)
    have hah : some a ≠ head := hne a (List.mem_cons_self _ _)
    have ih := tile_place_stack m mode n mh (k + 1) ht hne' hf' (by omega)
    have hy : (((k + 1 : Nat) : Int) - 1) * Int.tdiv 600 ((n : Int) - 1)
        = ((k : Int) - 1) * Int.tdiv 600 ((n : Int) - 1) + Int.tdiv 600 ((n : Int) - 1) := by
      push_cast
      ring
    rw [hy] at ih
    have hk0 : k ≠ 0 := by omega
    simp only [tile_place, load, hc, hah, if_false, List.map_cons, spec_rects, spec_rect, hk0,
      winOf_eq hc]
    show (do let rest ← tile_place h head 0 0 _ mh _ _ _ fuel c.next _; pure (_ :: rest)) = _
    rw [ih]
    rfl

/-- What `tile()` issues on a list of at least two clients, in every mode. -/
theorem tile_eq (s : WM) (a : Addr) (l : List Addr) (fuel : Nat)
    (hl : Chain s.heap s.head (a :: l)) (hn : 1 ≤ l.length) (hf : (a :: l).length ≤ fuel) :
    tile fuel s = .ok (⟨winOf s.heap a, 0, 0,
        (if s.mode = 0 then Int.tdiv (800 * s.master_size) 100 else 800),
        (if s.mode = 1 then Int.tdiv (600 * s.master_size) 100 else 600)⟩ ::
      spec_rects s.master_size s.mode (a :: l).length 1 (l.map (winOf s.heap))) := by
  match fuel, hf with
  | fuel + 1, hf =>
    have hnm := Chain.head_not_mem hl
    have hcount := tile_count_chain 0 hl hf
    rw [Chain.cons_iff] at hl
    obtain ⟨hp, c, hc, ht⟩ := hl
    have hf' : l.length ≤ fuel := by simpa using hf
    have hne : ∀ b ∈ l, some b ≠ s.head := by
      intro b hb hbe
      rw [hp] at hbe
      exact hnm (Option.some.inj hbe ▸ hb)
    have hn0 : (((a :: l).length : Nat) : Int) ≠ 0 := by
      simp only [List.length_cons]; push_cast; omega
    have hn1 : (((a :: l).length : Nat) : Int) - 1 ≠ 0 := by
      simp only [List.length_cons]; push_cast; omega
    have hst := tile_place_stack s.master_size s.mode (a :: l).length
      (if s.mode = 1 then Int.tdiv (600 * s.master_size) 100 else 600) 1 ht hne hf' (le_refl _)
    simp only [Nat.cast_one, sub_self, zero_mul] at hst
    unfold tile
    rw [hcount]
    rw [hp] at hst
    by_cases hm0 : s.mode = 0 <;> by_cases hm1 : s.mode = 1 <;>
      simp only [hm0, hm1, cdiv, zero_add, hn0, hn1, if_false, if_true, bind, Except.bind, pure,
        Except.pure, one_ne_zero, zero_ne_one, OfNat.ofNat_ne_zero, hp, tile_place, load, hc,
        winOf_eq hc] at hst ⊢ <;>
      simp only [hst]

theorem spec_rects_length (m mode : Int) (n : Nat) :
    ∀ (ws : List Window) (k : Nat), (spec_rects m mode n k ws).length = ws.length
  | [], _ => rfl
  | _ :: ws, k => by simp [spec_rects, spec_rects_length m mode n ws (k + 1)]

theorem spec_rects_heights (m mode : Int) (n : Nat) :
    ∀ (ws : List Window) (k : Nat), 1 ≤ k →
      ((spec_rects m mode n k ws).map (fun r => r.height)).sum
        = (ws.length : Int) * Int.tdiv 600 ((n : Int) - 1)
  | [], _, _ => by simp [spec_rects]
  | _ :: ws, k, hk => by
    have hk0 : k ≠ 0 := by omega
    simp only [spec_rects, List.map_cons, List.sum_cons, spec_rect, hk0, if_false,
      spec_rects_heights m mode n ws (k + 1) (by omega), List.length_cons]
    push_cast
    ring

theorem spec_rects_bottom (m mode : Int) (n : Nat) :
    ∀ (ws : List Window) (k : Nat), 1 ≤ k → ws ≠ [] →
      (spec_rects m mode n k ws).getLast?.map (fun r => r.y + r.height)
        = some (((k : Int) - 1 + ws.length) * Int.tdiv 600 ((n : Int) - 1))
  | [], _, _, h => absurd rfl h
  | [w], k, hk, _ => by
    have hk0 : k ≠ 0 := by omega
    simp only [spec_rects, List.getLast?_singleton, Option.map_some', spec_rect, hk0, if_false,
      List.length_singleton, Nat.cast_one]
    congr 1
    ring
  | w :: w' :: ws, k, hk, _ => by
    have ih := spec_rects_bottom m mode n (w' :: ws) (k + 1) (by omega) (by simp)
    simp only [spec_rects, List.getLast?_cons_cons] at ih ⊢
    rw [ih]
    simp only [List.length_cons]
    push_cast
    congr 1
    ring

theorem windows_from_chain {h : Heap} : ∀ {l : List Addr} {p : Ptr} {fuel : Nat},
    Chain h p l → l.length ≤ fuel → windows_from h fuel p = .ok (l.map (winOf h))
  | [], p, fuel, hl, _ => by
    rw [Chain.nil_iff] at hl
    subst hl
    cases fuel <;> simp [windows_from]
  | a :: l, p, 0, _, hf => by simp at hf
  | a :: l, p, fuel + 1, hl, hf => by
    rw [Chain.cons_iff] at hl
    obtain ⟨hp, c, hc, ht⟩ := hl
    subst hp
    have hf' : l.length ≤ fuel := by simpa using hf
    simp only [windows_from, load, hc, bind, Except.bind, windows_from_chain ht hf', pure,
      Except.pure, List.map_cons, winOf_eq hc]

theorem to_unsigned_index {n : Nat} (hn : n < 10) : to_unsigned (n : Int) = n := by
  unfold to_unsigned
  rw [Int.emod_eq_of_lt (by omega) (by omega)]
  simp

theorem desktop_index_natCast {n : Nat} (hn : n < 10) : desktop_index (n : Int) = .ok n := by
  unfold desktop_index
  have h : (0 : Int) ≤ n ∧ (n : Int) < 10 := ⟨by omega, by omega⟩
  simp [h]

theorem set_desktop_same (ds : Nat → desktop) (k : Nat) (d : desktop) :
    set_desktop ds k d k = d := by
  simp [set_desktop]

theorem set_desktop_other (ds : Nat → desktop) {j k : Nat} (d : desktop) (h : j ≠ k) :
    set_desktop ds k d j = ds j := by
  simp [set_desktop, h]

theorem load_of_live {h : Heap} {a : Addr} (hl : (h a).isSome = true) :
    ∃ c, h a = some c ∧ load h (some a) = .ok c := by
  cases hc : h a with
  | none => simp [hc] at hl
  | some c => exact ⟨c, rfl, by simp [load, hc]⟩

theorem unlink_eq (h : Heap) (p : Ptr) :
    unlink h p = (load h p).bind fun c =>
      (if c.prev ≠ none then store_next h c.prev c.next else .ok h).bind fun h₁ =>
        (load h₁ p).bind fun c₁ =>
          if c₁.next ≠ none then store_prev h₁ c₁.next c₁.prev else .ok h₁ := by
  unfold unlink
  cases load h p with
  | error e => rfl
  | ok c =>
    simp only [bind, Except.bind, pure, Except.pure]
    split <;> rfl

theorem client_to_desktop_add_layout {fuel : Nat} {s s' : WM} {t cd : Nat} {tmp : Ptr}
    (h : client_to_desktop_add fuel s t cd tmp = .ok s') :
    (s'.desktops t).master_size = s.master_size ∧ (s'.desktops t).mode = s.mode := by
  unfold client_to_desktop_add at h
  simp only [set_desktop_same] at h
  split at h
  · cases hl : load s.heap tmp with
    | error e => simp [hl, bind, Except.bind] at h
    | ok c =>
      simp only [hl, bind, Except.bind, pure, Except.pure, Except.ok.injEq] at h
      subst h
      by_cases htc : t = cd
      · subst htc
        simp only [set_desktop_same, and_self]
      · simp only [set_desktop_other _ _ htc, set_desktop_same, and_self]
  · simp only [bind, Except.bind, pure, Except.pure] at h
    split at h
    · cases h
    · split at h
      · cases h
      · split at h
        · cases h
        · cases h
          simp only [set_desktop_same, and_self]

theorem client_to_desktop_remove_desktops {s s' : WM} {tmp : Ptr}
    (h : client_to_desktop_remove s tmp = .ok s') : s'.desktops = s.desktops := by
  unfold client_to_desktop_remove at h
  simp only [bind, Except.bind, pure, Except.pure] at h
  split at h
  · cases h
  · split at h
    · split at h
      · cases h
      · split at h <;> cases h <;> rfl
    · split at h <;> cases h <;> rfl

theorem client_to_desktop_prepare_desktops {s s' : WM} {cd : Nat} {tmp : Ptr}
    (h : client_to_desktop_prepare s cd tmp = .ok s') : s'.desktops = s.desktops := by
  unfold client_to_desktop_prepare at h
  simp only [bind, Except.bind, pure, Except.pure] at h
  split at h
  · cases h
  · split at h
    · cases h
    · cases h
      rfl

theorem client_to_desktop_layout_of_ok {fuel : Nat} {s : WM} {i : Int} {o : Outcome}
    (hi : to_unsigned i ≠ s.current_desktop) (hc : s.current ≠ none)
    (ho : client_to_desktop fuel s i = .ok o) :
    ∃ t, desktop_index i = .ok t ∧ (o.state.desktops t).master_size = s.master_size ∧
      (o.state.desktops t).mode = s.mode := by
  unfold client_to_desktop at ho
  simp only [hi, hc, false_or, if_false] at ho
  cases ht : desktop_index i with
  | error e => simp [ht, bind, Except.bind] at ho
  | ok t =>
    refine ⟨t, rfl, ?_⟩
    cases hcd : desktop_index (s.current_desktop : Int) with
    | error e => simp [ht, hcd, bind, Except.bind] at ho
    | ok cd =>
      cases h1 : client_to_desktop_add fuel s t cd s.current with
      | error e => simp [ht, hcd, h1, bind, Except.bind] at ho
      | ok s1 =>
        cases h2 : client_to_desktop_remove s1 s.current with
        | error e => simp [ht, hcd, h1, h2, bind, Except.bind] at ho
        | ok s2 =>
          cases h3 : client_to_desktop_prepare s2 cd s.current with
          | error e => simp [ht, hcd, h1, h2, h3, bind, Except.bind] at ho
          | ok s3 =>
            simp only [ht, hcd, h1, h2, h3, bind, Except.bind, pure, Except.pure,
              Except.ok.injEq] at ho
            subst ho
            simp only [retile]
            rw [client_to_desktop_prepare_desktops h3, client_to_desktop_remove_desktops h2]
            exact client_to_desktop_add_layout h1

theorem increase_master_size (fuel : Nat) (s : WM) :
    (increase fuel s).state.master_size
      = if s.master_size < 80 then s.master_size + 10 else s.master_size := by
  unfold increase
  split <;> rfl

theorem decrease_master_size (fuel : Nat) (s : WM) :
    (decrease fuel s).state.master_size
      = if s.master_size > 50 then s.master_size - 10 else s.master_size := by
  unfold decrease
  split <;> rfl

/-- Any predicate on the master size that `increase()` and `decrease()` preserve
holds after every sequence of the two. -/
theorem run_stepped_invariant (P : Int → Prop) (fuel : Nat)
    (hinc : ∀ s : WM, P s.master_size → P (increase fuel s).state.master_size)
    (hdec : ∀ s : WM, P s.master_size → P (decrease fuel s).state.master_size) :
    ∀ (cs : List Call) (s : WM), (∀ c ∈ cs, c = .increase ∨ c = .decrease) →
      P s.master_size → ∃ s', run fuel s cs = .ok s' ∧ P s'.master_size
  | [], s, _, hs => ⟨s, rfl, hs⟩
  | c :: cs, s, hcs, hs => by
    have hc := hcs c (List.mem_cons_self _ _)
    have hrest : ∀ c' ∈ cs, c' = .increase ∨ c' = .decrease :=
      fun c' h' => hcs c' (List.mem_cons_of_mem _ h')
    rcases hc with hc | hc
    · subst hc
      obtain ⟨s', h1, h2⟩ := run_stepped_invariant P fuel hinc hdec cs _ hrest (hinc s hs)
      exact ⟨s', by simpa [run, Call.run, bind, Except.bind, pure, Except.pure] using h1, h2⟩
    · subst hc
      obtain ⟨s', h1, h2⟩ := run_stepped_invariant P fuel hinc hdec cs _ hrest (hdec s hs)
      exact ⟨s', by simpa [run, Call.run, bind, Except.bind, pure, Except.pure] using h1, h2⟩

/-- A call whose stores pass and whose trailing `tile()` returns, returns. -/
theorem returned_ok {r : Except Fault Outcome} {o : Outcome} {rs : List XMoveResizeWindow}
    (h : r = .ok o) (ht : o.tiled = .ok rs) : returned r = .ok o.state := by
  subst h
  simp [returned, ht, bind, Except.bind, pure, Except.pure]

/-- A call whose trailing `tile()` faults ends in that fault. -/
theorem returned_error {r : Except Fault Outcome} {o : Outcome} {f : Fault}
    (h : r = .ok o) (ht : o.tiled = .error f) : returned r = .error f := by
  subst h
  simp [returned, ht, bind, Except.bind]

/-- On a list that does not hold exactly one client, `tile()` returns. -/
theorem tile_returns {s : WM} {l : List Addr} {fuel : Nat} (hl : Chain s.heap s.head l)
    (hn : l.length ≠ 1) (hf : l.length ≤ fuel) : ∃ rs, tile fuel s = .ok rs := by
  match l, hl, hn, hf with
  | [], hl, _, _ =>
    have hcount := tile_count_chain 0 hl (Nat.zero_le fuel)
    exact ⟨[], by simp [tile, hcount, bind, Except.bind, pure, Except.pure]⟩
  | [a], _, hn, _ => exact absurd rfl hn
  | a :: b :: l, hl, _, hf => exact ⟨_, tile_eq s a (b :: l) fuel hl (by simp) hf⟩

/-- On a list of exactly one client, `tile()` divides by zero. -/
theorem tile_single {s : WM} {a : Addr} {fuel : Nat} (hl : Chain s.heap s.head [a])
    (hf : 1 ≤ fuel) : tile fuel s = .error .divByZero := by
  have hcount := tile_count_chain 0 hl (by simpa using hf)
  unfold tile
  rw [hcount]
  by_cases hm0 : s.mode = 0 <;> by_cases hm1 : s.mode = 1 <;>
    simp [hm0, hm1, cdiv, bind, Except.bind, pure, Except.pure]

/-- A call that returns has passed its stores: `run` follows every sequence of calls
that `exec` completes, with the same state. -/
theorem returned_state {r : Except Fault Outcome} {s' : WM} (h : returned r = .ok s') :
    Outcome.state <$> r = .ok s' := by
  cases r with
  | error f => simp [returned, bind, Except.bind] at h
  | ok o =>
    cases ht : o.tiled with
    | error f => simp [returned, ht, bind, Except.bind] at h
    | ok rs =>
      simp [returned, ht, bind, Except.bind, pure, Except.pure] at h
      subst h
      rfl

theorem Call.run_follows {fuel : Nat} {s s' : WM} {c : Call} (h : c.exec fuel s = .ok s') :
    c.run fuel s = .ok s' := by
  cases c with
  | add_window w => exact h
  | remove_window w => exact returned_state h
  | destroynotify w => exact returned_state h
  | change_desktop i => exact returned_state h
  | client_to_desktop i => exact returned_state h
  | resizemaster i => exact @returned_state (.ok _) _ h
  | increase => exact @returned_state (.ok _) _ h
  | decrease => exact @returned_state (.ok _) _ h

theorem run_follows_exec {fuel : Nat} : ∀ {cs : List Call} {s s' : WM},
    exec fuel s cs = .ok s' → run fuel s cs = .ok s'
  | [], s, s', h => h
  | c :: cs, s, s', h => by
    cases h1 : c.exec fuel s with
    | error f => simp [exec, h1, bind, Except.bind] at h
    | ok s1 =>
      simp only [exec, h1, bind, Except.bind] at h
      simp only [run, Call.run_follows h1, bind, Except.bind]
      exact run_follows_exec h

theorem desktop_index_to_unsigned {i : Int} {t : Nat} (h : desktop_index i = .ok t) :
    to_unsigned i = t := by
  unfold desktop_index at h
  split at h
  · rename_i hr
    cases h
    unfold to_unsigned
    rw [Int.emod_eq_of_lt hr.1 (by omega)]
  · cases h

/-- A chain only depends on the `next` fields of the cells it visits. -/
theorem Chain.congr_next {h h' : Heap} : ∀ {l : List Addr} {p : Ptr},
    (∀ a ∈ l, (h' a).map client.next = (h a).map client.next) → Chain h p l → Chain h' p l
  | [], _, _, hl => by simpa [Chain.nil_iff] using hl
  | a :: l, p, hf, hl => by
    rw [Chain.cons_iff] at hl ⊢
    obtain ⟨hp, c, hc, ht⟩ := hl
    have ha := hf a (List.mem_cons_self _ _)
    rw [hc] at ha
    cases hc' : h' a with
    | none => simp [hc'] at ha
    | some c' =>
      simp only [hc', Option.map_some', Option.some.injEq] at ha
      refine ⟨hp, c', rfl, ?_⟩
      rw [ha]
      exact Chain.congr_next (fun b hb => hf b (List.mem_cons_of_mem _ hb)) ht

/-- The block `// Remove client from current desktop` on a client whose unlinking
passes. -/
theorem client_to_desktop_remove_eq {s : WM} {c : Addr} {cc : client} {h1 : Heap}
    (hun : unlink s.heap (some c) = .ok h1) (h1c : h1 c = some cc) :
    ∃ s2, client_to_desktop_remove s (some c) = .ok s2 ∧ s2.heap = h1 ∧
      s2.head = (if some c = s.head then cc.next else s.head) := by
  unfold client_to_desktop_remove
  simp only [hun, bind, Except.bind, pure, Except.pure]
  by_cases hh : some c = s.head
  · have hl : load h1 (some c) = .ok cc := by simp [load, h1c]
    simp only [if_pos hh, hl]
    split <;> exact ⟨_, rfl, rfl, rfl⟩
  · simp only [if_neg hh]
    split <;> exact ⟨_, rfl, rfl, rfl⟩

/-- The block `// Prepare client for new desktop` on a live client: its two links
become `NULL`. -/
theorem client_to_desktop_prepare_eq {s : WM} (cd : Nat) {c : Addr} {cc : client}
    (hc : s.heap c = some cc) :
    ∃ s3, client_to_desktop_prepare s cd (some c) = .ok s3 ∧ s3.head = s.head ∧
      ∀ x, s3.heap x = if x = c then some ⟨none, none, cc.win⟩ else s.heap x := by
  refine ⟨{ s with
      current := (s.desktops cd).current,
      heap := (s.heap.set c (some { cc with next := none })).set c
        (some { cc with next := none, prev := none }) }, ?_, rfl, ?_⟩
  · simp [client_to_desktop_prepare, store_next, store_prev, load, hc, Heap.set, bind,
      Except.bind, pure, Except.pure]
  · intro x
    by_cases hx : x = c <;> simp [Heap.set, hx]

/-- The block `// Add client to desktop` on an empty target leaves the heap and the
working head as they are. -/
theorem client_to_desktop_add_empty_eq (fuel : Nat) {s : WM} {t : Nat} (cd : Nat) {a : Addr}
    {c : client} (he : (s.desktops t).head = none) (hc : s.heap a = some c) :
    ∃ s', client_to_desktop_add fuel s t cd (some a) = .ok s' ∧ s'.heap = s.heap ∧
      s'.head = s.head := by
  have hload : load s.heap (some a) = .ok c := by simp [load, hc]
  unfold client_to_desktop_add
  simp only [set_desktop_same, he, if_true, hload, bind, Except.bind, pure, Except.pure]
  exact ⟨_, rfl, rfl, rfl⟩

/-- The block `// Add client to desktop` on a target that holds clients, when the
walk from the saved head of the active desktop ends at the client being moved: the
client is linked to itself. -/
theorem client_to_desktop_add_self {fuel : Nat} {s : WM} {t cd : Nat} {c : Addr} {cc : client}
    (hne : (s.desktops t).head ≠ none) (htcd : cd ≠ t)
    (hwalk : last_client s.heap fuel (s.desktops cd).head = .ok (some c))
    (hc : s.heap c = some cc) :
    ∃ s1, client_to_desktop_add fuel s t cd (some c) = .ok s1 ∧ s1.head = s.head ∧
      ∀ x, s1.heap x = if x = c then some ⟨some c, some c, cc.win⟩ else s.heap x := by
  refine ⟨{ s with
      desktops := set_desktop (set_desktop (set_desktop s.desktops t
          { s.desktops t with master_size := s.master_size }) t
          { s.desktops t with master_size := s.master_size, mode := s.mode }) t
          { s.desktops t with master_size := s.master_size, mode := s.mode,
                              current := some c },
      current := some c,
      heap := (s.heap.set c (some { cc with next := some c })).set c
        (some { cc with next := some c, prev := some c }) }, ?_, rfl, ?_⟩
  · unfold client_to_desktop_add
    simp only [set_desktop_same, hne, if_false, set_desktop_other _ _ htcd, hwalk, bind,
      Except.bind, pure, Except.pure]
    simp [store_next, store_prev, load, hc, Heap.set, bind, Except.bind, pure, Except.pure]
  · intro x
    by_cases hx : x = c <;> simp [Heap.set, hx]

/-- Unlinking a client that is linked to itself leaves every cell as it is. -/
theorem unlink_self {h : Heap} {c : Addr} {w : Window}
    (hc : h c = some ⟨some c, some c, w⟩) :
    ∃ h1, unlink h (some c) = .ok h1 ∧ ∀ x, h1 x = h x := by
  refine ⟨(h.set c (some ⟨some c, some c, w⟩)).set c (some ⟨some c, some c, w⟩), ?_, ?_⟩
  · simp [unlink, load, hc, store_next, store_prev, Heap.set, bind, Except.bind, pure,
      Except.pure]
  · intro x
    by_cases hx : x = c
    · subst hx; simp [Heap.set, hc]
    · simp [Heap.set, hx]

/-- Every call of `client_to_desktop` that passes its guard and returns has stored
the working master size and mode in the slot of the target. -/
theorem client_to_desktop_layout_of_returned {fuel : Nat} {s s' : WM} {i : Int}
    (hi : to_unsigned i ≠ s.current_desktop) (hc : s.current ≠ none)
    (h : returned (client_to_desktop fuel s i) = .ok s') :
    ∃ t, desktop_index i = .ok t ∧ (s'.desktops t).master_size = s.master_size ∧
      (s'.desktops t).mode = s.mode := by
  cases ho : client_to_desktop fuel s i with
  | error f => simp [returned, ho, bind, Except.bind] at h
  | ok o =>
    have hst : o.state = s' := by
      have := returned_state h
      rw [ho] at this
      cases this
      rfl
    rw [← hst]
    exact client_to_desktop_layout_of_ok hi hc ho

/-! ### The tiling routine -/

/-- C1: on a list of n ≥ 2 clients, in vertical (0) or horizontal (1) mode and for
every master size, `tile()` issues one rectangle per client in list order: the head
gets the master rectangle of the specification, the k-th stack client
`(master_width, (k-1)*(600/(n-1)), 800 - master_width, 600/(n-1))`. Three clients
with master size 50 in vertical mode get `(0,0,400,600)`, `(400,0,400,300)`,
`(400,300,400,300)`. -/
theorem tile_rectangles (s : WM) (l : List Addr) (fuel : Nat)
    (hl : Chain s.heap s.head l) (hn : 2 ≤ l.length)
    (hmode : s.mode = 0 ∨ s.mode = 1) (hf : l.length ≤ fuel) :
    tile fuel s = .ok (spec_rects s.master_size s.mode l.length 0 (l.map (winOf s.heap)))
    ∧ (s.master_size = 50 → s.mode = 0 → ∀ a1 a2 a3, l = [a1, a2, a3] →
        tile fuel s = .ok [⟨winOf s.heap a1, 0, 0, 400, 600⟩,
                          ⟨winOf s.heap a2, 400, 0, 400, 300⟩,
                          ⟨winOf s.heap a3, 400, 300, 400, 300⟩]) := by
  have main : tile fuel s
      = .ok (spec_rects s.master_size s.mode l.length 0 (l.map (winOf s.heap))) := by
    match l, hl, hn, hf with
    | a :: l, hl, hn, hf =>
      rw [tile_eq s a l fuel hl (by simpa using hn) hf]
      rcases hmode with hm | hm <;> simp [hm, spec_rects, spec_rect]
  refine ⟨main, ?_⟩
  intro hm hmode a1 a2 a3 hl3
  rw [main, hl3, hm, hmode]
  simp [spec_rects, spec_rect]
  decide

theorem tile_rectangles_witness :
    Chain (listed 3 50 0).heap (listed 3 50 0).head [0, 1, 2] ∧
    tile 3 (listed 3 50 0)
      = .ok [⟨1, 0, 0, 400, 600⟩, ⟨2, 400, 0, 400, 300⟩, ⟨3, 400, 300, 400, 300⟩] :=
  ⟨by decide,
   (tile_rectangles (listed 3 50 0) [0, 1, 2] 3 (by decide) (by decide) (by decide)
      (by decide)).2 rfl rfl 0 1 2 rfl⟩

/-- C2: on a list of exactly one client `tile()` evaluates `600 / (n - 1)` with
`n - 1 = 0`, in every mode and for every master size. -/
theorem tile_single_client_div_by_zero (s : WM) (a : Addr) (fuel : Nat)
    (hl : Chain s.heap s.head [a]) (hf : 1 ≤ fuel) :
    tile fuel s = .error .divByZero := by
  have hcount := tile_count_chain 0 hl (by simpa using hf)
  unfold tile
  rw [hcount]
  by_cases hm0 : s.mode = 0 <;> by_cases hm1 : s.mode = 1 <;>
    simp [hm0, hm1, cdiv, bind, Except.bind, pure, Except.pure]

theorem tile_single_client_div_by_zero_witness :
    Chain (listed 1 50 0).heap (listed 1 50 0).head [0] ∧
    tile 1 (listed 1 50 0) = .error .divByZero :=
  ⟨by decide, tile_single_client_div_by_zero (listed 1 50 0) 0 1 (by decide) (by decide)⟩

/-- C3 (counterexample): with eight clients the seven stack rectangles are 85 high;
their heights sum to 595 and the last one ends at y = 595, not 600. -/
theorem tile_stack_column_gap :
    ∃ rs, tile 8 (listed 8 50 0) = .ok rs ∧ (stack_heights rs).sum = 595 ∧
      stack_bottom rs = some 595 ∧ (stack_heights rs).sum ≠ 600 :=
  ⟨_, rfl, by decide, by decide, by decide⟩

/-- C3 (amended): for n ≥ 2 clients the n-1 stack rectangles have heights that sum
to `600 - 600 % (n-1)`, which is where the last one ends; that is at most 600, and
600 exactly when n-1 divides 600. -/
theorem tile_stack_column (s : WM) (l : List Addr) (fuel : Nat)
    (hl : Chain s.heap s.head l) (hn : 2 ≤ l.length) (hf : l.length ≤ fuel) :
    ∃ rs, tile fuel s = .ok rs ∧ rs.length = l.length ∧
      (stack_heights rs).sum = 600 - 600 % ((l.length : Int) - 1) ∧
      stack_bottom rs = some (600 - 600 % ((l.length : Int) - 1)) ∧
      (stack_heights rs).sum ≤ 600 ∧
      ((stack_heights rs).sum = 600 ↔ ((l.length : Int) - 1) ∣ 600) := by
  match l, hl, hn, hf with
  | a :: l, hl, hn, hf =>
    have hlen : 1 ≤ l.length := by simpa using hn
    have hne : l ≠ [] := by intro h; simp [h] at hlen
    have hpos : (0 : Int) ≤ ((a :: l).length : Int) - 1 := by
      simp only [List.length_cons]; push_cast; omega
    have hcast : (((a :: l).length : Int) - 1) = (l.length : Int) := by
      simp only [List.length_cons]; push_cast; ring
    have hdiv : Int.tdiv 600 (((a :: l).length : Int) - 1) = 600 / (l.length : Int) := by
      rw [Int.tdiv_eq_ediv (by norm_num) hpos, hcast]
    have hsum : (l.length : Int) * (600 / (l.length : Int)) = 600 - 600 % (l.length : Int) := by
      have := Int.emod_add_ediv 600 (l.length : Int)
      omega
    have hmod : (0 : Int) ≤ 600 % (l.length : Int) :=
      Int.emod_nonneg _ (by omega)
    refine ⟨_, tile_eq s a l fuel hl hlen hf, ?_, ?_, ?_, ?_, ?_⟩
    · simp [spec_rects_length]
    · simp only [stack_heights, List.tail_cons]
      rw [spec_rects_heights _ _ _ _ 1 (le_refl _), List.length_map, hdiv, hcast, hsum]
    · simp only [stack_bottom, List.tail_cons]
      rw [spec_rects_bottom _ _ _ _ 1 (le_refl _) (by simpa using hne), List.length_map, hdiv,
        hcast]
      simp only [Nat.cast_one, sub_self, zero_add]
      rw [hsum]
    · simp only [stack_heights, List.tail_cons]
      rw [spec_rects_heights _ _ _ _ 1 (le_refl _), List.length_map, hdiv, hsum]
      omega
    · simp only [stack_heights, List.tail_cons]
      rw [spec_rects_heights _ _ _ _ 1 (le_refl _), List.length_map, hdiv, hcast, hsum]
      constructor
      · intro h
        apply Int.dvd_of_emod_eq_zero
        omega
      · intro h
        have := Int.emod_eq_zero_of_dvd h
        omega

theorem tile_stack_column_witness :
    Chain (listed 4 50 0).heap (listed 4 50 0).head [0, 1, 2, 3] ∧
    ∃ rs, tile 4 (listed 4 50 0) = .ok rs ∧ rs.length = 4 ∧
      (stack_heights rs).sum = 600 ∧ stack_bottom rs = some 600 :=
  ⟨by decide, by
    obtain ⟨rs, h1, h2, h3, h4, _, _⟩ :=
      tile_stack_column (listed 4 50 0) [0, 1, 2, 3] 4 (by decide) (by decide) (by decide)
    exact ⟨rs, h1, h2, h3, h4⟩⟩

/-! ### Desktop switch and migration -/

/-- C4: switching from the active desktop A to a valid desktop B and back to A
returns with the active index A, the working head, current, master size and mode
restored and the saved slot of B as it was, when B is A or neither list holds
exactly one client. When the list of B holds exactly one client, the trailing
`tile()` of the first call divides by zero: the call does not return. When the list
of A does, the first call returns and the second one ends the same way. -/
theorem change_desktop_round_trip (s : WM) (B : Nat) (la lb : List Addr) (fuel : Nat)
    (hA : s.current_desktop < 10) (hB : B < 10)
    (hla : Chain s.heap s.head la) (hlb : Chain s.heap (s.desktops B).head lb)
    (hfa : la.length ≤ fuel) (hfb : lb.length ≤ fuel) :
    ((B = s.current_desktop ∨ (la.length ≠ 1 ∧ lb.length ≠ 1)) →
      ∃ s₁ s₂, returned (change_desktop fuel s B) = .ok s₁ ∧
        returned (change_desktop fuel s₁ s.current_desktop) = .ok s₂ ∧
        s₂.current_desktop = s.current_desktop ∧
        s₂.head = s.head ∧ s₂.current = s.current ∧
        s₂.master_size = s.master_size ∧ s₂.mode = s.mode ∧
        s₂.desktops B = s.desktops B ∧ s₂.heap = s.heap) ∧
    (B ≠ s.current_desktop → lb.length = 1 →
      returned (change_desktop fuel s B) = .error .divByZero) ∧
    (B ≠ s.current_desktop → lb.length ≠ 1 → la.length = 1 →
      ∃ s₁, returned (change_desktop fuel s B) = .ok s₁ ∧ s₁.current_desktop = B ∧
        returned (change_desktop fuel s₁ s.current_desktop) = .error .divByZero) := by
  by_cases hBA : B = s.current_desktop
  · refine ⟨fun _ => ⟨s, s, ?_, ?_, rfl, rfl, rfl, rfl, rfl, rfl, rfl⟩,
      fun h => absurd hBA h, fun h => absurd hBA h⟩
    · have e : change_desktop fuel s B = .ok ⟨s, .ok []⟩ := by
        simp only [change_desktop, hBA, to_unsigned_index hA, if_true]
        rfl
      exact returned_ok e rfl
    · have e : change_desktop fuel s s.current_desktop = .ok ⟨s, .ok []⟩ := by
        simp only [change_desktop, to_unsigned_index hA, if_true]
        rfl
      exact returned_ok e rfl
  · have hAB : s.current_desktop ≠ B := fun h => hBA h.symm
    have h1 : change_desktop fuel s B = .ok (retile fuel
        { s with desktops := set_desktop s.desktops s.current_desktop
                   ⟨s.master_size, s.mode, s.head, s.current⟩,
                 current_desktop := B, head := (s.desktops B).head,
                 current := (s.desktops B).current,
                 master_size := (s.desktops B).master_size,
                 mode := (s.desktops B).mode }) := by
      simp [change_desktop, to_unsigned_index hB, hBA, windows_from_chain hla hfa,
        windows_from_chain hlb hfb, desktop_index_natCast hA, desktop_index_natCast hB,
        set_desktop, bind, Except.bind, pure, Except.pure]
    have h2 : change_desktop fuel
        { s with desktops := set_desktop s.desktops s.current_desktop
                   ⟨s.master_size, s.mode, s.head, s.current⟩,
                 current_desktop := B, head := (s.desktops B).head,
                 current := (s.desktops B).current,
                 master_size := (s.desktops B).master_size,
                 mode := (s.desktops B).mode } s.current_desktop = .ok (retile fuel
        { s with desktops := set_desktop (set_desktop s.desktops s.current_desktop
                   ⟨s.master_size, s.mode, s.head, s.current⟩) B (s.desktops B) }) := by
      simp [change_desktop, to_unsigned_index hA, hAB, windows_from_chain hla hfa,
        windows_from_chain hlb hfb, desktop_index_natCast hA, desktop_index_natCast hB,
        set_desktop, bind, Except.bind, pure, Except.pure, hBA]
    refine ⟨?_, ?_, ?_⟩
    · rintro (h | ⟨hna, hnb⟩)
      · exact absurd h hBA
      · obtain ⟨rs1, hrs1⟩ := tile_returns (s := { s with
            desktops := set_desktop s.desktops s.current_desktop
              ⟨s.master_size, s.mode, s.head, s.current⟩,
            current_desktop := B, head := (s.desktops B).head,
            current := (s.desktops B).current,
            master_size := (s.desktops B).master_size,
            mode := (s.desktops B).mode }) hlb hnb hfb
        obtain ⟨rs2, hrs2⟩ := tile_returns (s := { s with
            desktops := set_desktop (set_desktop s.desktops s.current_desktop
              ⟨s.master_size, s.mode, s.head, s.current⟩) B (s.desktops B) }) hla hna hfa
        exact ⟨_, _, returned_ok h1 hrs1, returned_ok h2 hrs2, rfl, rfl, rfl, rfl, rfl,
          by simp [retile, set_desktop], rfl⟩
    · intro _ hb1
      obtain ⟨b, hb⟩ := List.length_eq_one.mp hb1
      rw [hb] at hlb
      have hfuel : 1 ≤ fuel := by rw [hb1] at hfb; exact hfb
      exact returned_error h1 (tile_single (s := { s with
            desktops := set_desktop s.desktops s.current_desktop
              ⟨s.master_size, s.mode, s.head, s.current⟩,
            current_desktop := B, head := (s.desktops B).head,
            current := (s.desktops B).current,
            master_size := (s.desktops B).master_size,
            mode := (s.desktops B).mode }) hlb hfuel)
    · intro _ hnb ha1
      obtain ⟨a, ha⟩ := List.length_eq_one.mp ha1
      rw [ha] at hla
      have hfuel : 1 ≤ fuel := by rw [ha1] at hfa; exact hfa
      obtain ⟨rs1, hrs1⟩ := tile_returns (s := { s with
          desktops := set_desktop s.desktops s.current_desktop
            ⟨s.master_size, s.mode, s.head, s.current⟩,
          current_desktop := B, head := (s.desktops B).head,
          current := (s.desktops B).current,
          master_size := (s.desktops B).master_size,
          mode := (s.desktops B).mode }) hlb hnb hfb
      exact ⟨_, returned_ok h1 hrs1, rfl, returned_error h2 (tile_single (s := { s with
          desktops := set_desktop (set_desktop s.desktops s.current_desktop
            ⟨s.master_size, s.mode, s.head, s.current⟩) B (s.desktops B) }) hla hfuel)⟩

theorem change_desktop_round_trip_witness :
    (WM.view <$> exec 4 startup [.add_window 1, .add_window 2, .add_window 3,
        .client_to_desktop 1] = .ok parked.view ∧
      Chain parked.heap parked.head [0, 1] ∧
      Chain parked.heap (parked.desktops 1).head [2] ∧
      returned (change_desktop 4 parked 1) = .error .divByZero ∧
      WM.view <$> exec 4 startup [.add_window 1, .add_window 2, .add_window 3,
        .client_to_desktop 1, .change_desktop 1] = .error .divByZero) ∧
    (∃ s₁ s₂, returned (change_desktop 2 (listed 2 50 0) 1) = .ok s₁ ∧
      returned (change_desktop 2 s₁ 0) = .ok s₂ ∧
      s₂.current_desktop = 0 ∧
      s₂.head = some 0 ∧ s₂.current = some 1 ∧
      s₂.master_size = 50 ∧ s₂.mode = 0 ∧
      s₂.desktops 1 = ⟨0, 0, none, none⟩) := by
  refine ⟨⟨by decide, by decide, by decide, ?_, by decide⟩, ?_⟩
  · exact (change_desktop_round_trip parked 1 [0, 1] [2] 4 (by decide) (by decide)
      (by decide) (by decide) (by decide) (by decide)).2.1 (by decide) rfl
  · obtain ⟨s₁, s₂, h1, h2, h3, h4, h5, h6, h7, h8, _⟩ :=
      (change_desktop_round_trip (listed 2 50 0) 1 [0, 1] [] 2 (by decide) (by decide)
        (by decide) (by decide) (by decide) (by decide)).1 (Or.inr ⟨by decide, by decide⟩)
    exact ⟨s₁, s₂, h1, h2, h3, h4, h5, h6, h7, h8⟩

/-- C5: with a non-empty target the walk to the tail starts at
`desktops[current_desktop].head`, not at the target's head. With desktop 1 holding
W2 and desktop 0 active with W1 and a saved slot whose head is `NULL`,
`client_to_desktop(1)` dereferences `NULL`. With desktop 0 active with W1, W3 and
a saved slot whose head is W1, `client_to_desktop(1)` returns with W3 still linked
after W1 in the active list and desktop 1's list still W2 alone. The same on runs
in which every call before has returned, the trailing `tile()` included: the first
scenario is such a run, and with W1, W2 on desktop 0 (saved head W1), W3, W4 on
desktop 1 and W5 added to desktop 0, `client_to_desktop(1)` returns with W5 still
linked after W2 in the active list and desktop 1's list still W3, W4. -/
theorem client_to_desktop_nonempty_target_fault :
    observe 4 [.change_desktop 1, .add_window 2, .change_desktop 0, .add_window 1] WM.view
      = .ok ⟨0, 0, 0, some 1, some 1, [some ⟨none, none, 2⟩, some ⟨none, none, 1⟩],
          [⟨0, 0, none, none⟩, ⟨0, 0, some 0, some 0⟩]⟩ ∧
    observe 4 [.change_desktop 1, .add_window 2, .change_desktop 0, .add_window 1,
        .client_to_desktop 1] WM.view = .error .nullDeref ∧
    observe 4 [.add_window 1, .change_desktop 1, .add_window 2, .change_desktop 0,
        .add_window 3] WM.view
      = .ok ⟨0, 0, 0, some 0, some 2,
          [some ⟨some 2, none, 1⟩, some ⟨none, none, 2⟩, some ⟨none, some 0, 3⟩],
          [⟨0, 0, some 0, some 0⟩, ⟨0, 0, some 1, some 1⟩]⟩ ∧
    observe 4 [.add_window 1, .change_desktop 1, .add_window 2, .change_desktop 0,
        .add_window 3, .client_to_desktop 1] WM.view
      = .ok ⟨0, 0, 0, some 0, some 0,
          [some ⟨some 2, none, 1⟩, some ⟨none, none, 2⟩, some ⟨none, none, 3⟩],
          [⟨0, 0, some 0, some 0⟩, ⟨0, 0, some 1, some 2⟩]⟩ ∧
    WM.view <$> exec 4 startup [.change_desktop 1, .add_window 2, .change_desktop 0,
        .add_window 1]
      = .ok ⟨0, 0, 0, some 1, some 1, [some ⟨none, none, 2⟩, some ⟨none, none, 1⟩],
          [⟨0, 0, none, none⟩, ⟨0, 0, some 0, some 0⟩]⟩ ∧
    WM.view <$> exec 4 startup [.change_desktop 1, .add_window 2, .change_desktop 0,
        .add_window 1, .client_to_desktop 1] = .error .nullDeref ∧
    WM.view <$> exec 4 startup [.add_window 1, .add_window 2, .change_desktop 1,
        .add_window 3, .add_window 4, .change_desktop 0, .add_window 5]
      = .ok ⟨0, 0, 0, some 0, some 4,
          [some ⟨some 1, none, 1⟩, some ⟨some 4, some 0, 2⟩, some ⟨some 3, none, 3⟩,
            some ⟨none, some 2, 4⟩, some ⟨none, some 1, 5⟩],
          [⟨0, 0, some 0, some 1⟩, ⟨0, 0, some 2, some 3⟩]⟩ ∧
    WM.view <$> exec 4 startup [.add_window 1, .add_window 2, .change_desktop 1,
        .add_window 3, .add_window 4, .change_desktop 0, .add_window 5, .client_to_desktop 1]
      = .ok ⟨0, 0, 0, some 0, some 1,
          [some ⟨some 1, none, 1⟩, some ⟨some 4, some 0, 2⟩, some ⟨some 3, none, 3⟩,
            some ⟨none, some 2, 4⟩, some ⟨none, none, 5⟩],
          [⟨0, 0, some 0, some 1⟩, ⟨0, 0, some 2, some 4⟩]⟩ := by
  refine ⟨?_, ?_, ?_, ?_, ?_, ?_, ?_, ?_⟩ <;> decide

/-- C7: `client_to_desktop` ends by reloading the working current from the active
desktop's saved slot. After add W1, a switch to desktop 1 and back,
`client_to_desktop(1)` leaves the active list empty and current at W1, the client
it moved, now the head of desktop 1. After add W1, add W2, `client_to_desktop(1)`
leaves the active list `[W1]` with current `NULL`. The same on runs in which every
call returns, the trailing `tile()` included: after add W1, add W2, add W3, a switch
to desktop 1 and back, `client_to_desktop(1)` returns with the active list
`[W1, W2]` and current at W3, the client it moved; after add W1, add W2, add W3,
`client_to_desktop(1)` returns with the active list `[W1, W2]` and current `NULL`. -/
theorem client_to_desktop_stale_current :
    observe 4 [.add_window 1, .change_desktop 1, .change_desktop 0] WM.view
      = .ok ⟨0, 0, 0, some 0, some 0, [some ⟨none, none, 1⟩],
          [⟨0, 0, some 0, some 0⟩, ⟨0, 0, none, none⟩]⟩ ∧
    observe 4 [.add_window 1, .change_desktop 1, .change_desktop 0, .client_to_desktop 1]
        WM.view
      = .ok ⟨0, 0, 0, none, some 0, [some ⟨none, none, 1⟩],
          [⟨0, 0, none, some 0⟩, ⟨0, 0, some 0, some 0⟩]⟩ ∧
    observe 4 [.add_window 1, .add_window 2] WM.view
      = .ok ⟨0, 0, 0, some 0, some 1, [some ⟨some 1, none, 1⟩, some ⟨none, some 0, 2⟩],
          [⟨0, 0, none, none⟩, ⟨0, 0, none, none⟩]⟩ ∧
    observe 4 [.add_window 1, .add_window 2, .client_to_desktop 1] WM.view
      = .ok ⟨0, 0, 0, some 0, none, [some ⟨none, none, 1⟩, some ⟨none, none, 2⟩],
          [⟨0, 0, none, none⟩, ⟨0, 0, some 1, some 1⟩]⟩ ∧
    WM.view <$> exec 4 startup [.add_window 1, .add_window 2, .add_window 3,
        .change_desktop 1, .change_desktop 0]
      = .ok ⟨0, 0, 0, some 0, some 2,
          [some ⟨some 1, none, 1⟩, some ⟨some 2, some 0, 2⟩, some ⟨none, some 1, 3⟩],
          [⟨0, 0, some 0, some 2⟩, ⟨0, 0, none, none⟩]⟩ ∧
    WM.view <$> exec 4 startup [.add_window 1, .add_window 2, .add_window 3,
        .change_desktop 1, .change_desktop 0, .client_to_desktop 1]
      = .ok ⟨0, 0, 0, some 0, some 2,
          [some ⟨some 1, none, 1⟩, some ⟨none, some 0, 2⟩, some ⟨none, none, 3⟩],
          [⟨0, 0, none, some 2⟩, ⟨0, 0, some 2, some 2⟩]⟩ ∧
    WM.view <$> exec 4 startup [.add_window 1, .add_window 2, .add_window 3]
      = .ok ⟨0, 0, 0, some 0, some 2,
          [some ⟨some 1, none, 1⟩, some ⟨some 2, some 0, 2⟩, some ⟨none, some 1, 3⟩],
          [⟨0, 0, none, none⟩, ⟨0, 0, none, none⟩]⟩ ∧
    WM.view <$> exec 4 startup [.add_window 1, .add_window 2, .add_window 3,
        .client_to_desktop 1]
      = .ok ⟨0, 0, 0, some 0, none,
          [some ⟨some 1, none, 1⟩, some ⟨none, some 0, 2⟩, some ⟨none, none, 3⟩],
          [⟨0, 0, none, none⟩, ⟨0, 0, some 2, some 2⟩]⟩ := by
  refine ⟨?_, ?_, ?_, ?_, ?_, ?_, ?_, ?_⟩ <;> decide

/-! ### Insertion and removal -/

/-- C8: add W7 twice, then remove W7. Current, at the second client, steps back to
the first; the scan unlinks and frees the first. The list is the second client
alone and current is the freed address. `destroynotify` does the same. The same on a
run in which every call returns, the trailing `tile()` included: add W8, add W7
twice, then remove W7; the call returns with the list W8 and the second W7, and
current the freed address of the first W7. -/
theorem remove_window_duplicate_handle_dangling :
    observe 4 [.add_window 7, .add_window 7] WM.view
      = .ok ⟨0, 0, 0, some 0, some 1, [some ⟨some 1, none, 7⟩, some ⟨none, some 0, 7⟩],
          [⟨0, 0, none, none⟩, ⟨0, 0, none, none⟩]⟩ ∧
    observe 4 [.add_window 7, .add_window 7, .remove_window 7] WM.view
      = .ok ⟨0, 0, 0, some 1, some 0, [none, some ⟨none, none, 7⟩],
          [⟨0, 0, none, none⟩, ⟨0, 0, none, none⟩]⟩ ∧
    observe 4 [.add_window 7, .add_window 7, .destroynotify 7] WM.view
      = .ok ⟨0, 0, 0, some 1, some 0, [none, some ⟨none, none, 7⟩],
          [⟨0, 0, none, none⟩, ⟨0, 0, none, none⟩]⟩ ∧
    WM.view <$> exec 4 startup [.add_window 8, .add_window 7, .add_window 7]
      = .ok ⟨0, 0, 0, some 0, some 2,
          [some ⟨some 1, none, 8⟩, some ⟨some 2, some 0, 7⟩, some ⟨none, some 1, 7⟩],
          [⟨0, 0, none, none⟩, ⟨0, 0, none, none⟩]⟩ ∧
    WM.view <$> exec 4 startup [.add_window 8, .add_window 7, .add_window 7, .remove_window 7]
      = .ok ⟨0, 0, 0, some 0, some 1,
          [some ⟨some 2, none, 8⟩, none, some ⟨none, some 0, 7⟩],
          [⟨0, 0, none, none⟩, ⟨0, 0, none, none⟩]⟩ ∧
    WM.view <$> exec 4 startup [.add_window 8, .add_window 7, .add_window 7, .destroynotify 7]
      = .ok ⟨0, 0, 0, some 0, some 1,
          [some ⟨some 2, none, 8⟩, none, some ⟨none, some 0, 7⟩],
          [⟨0, 0, none, none⟩, ⟨0, 0, none, none⟩]⟩ := by
  refine ⟨?_, ?_, ?_, ?_, ?_, ?_⟩ <;> decide

/-! ### The master size -/

/-- C9 (counterexample): `resizemaster(0)` returns at its guard and leaves the master
size as it is: 0 at startup, 95 from 95. -/
theorem resizemaster_zero_delta_unclamped :
    (resizemaster 0 startup 0).state.master_size = 0 ∧
    (resizemaster 0 (listed 0 95 0) 0).state.master_size = 95 := by
  decide

/-- C9 (amended): for every master size m and every delta other than 0,
`resizemaster(delta)` leaves the master size at m + delta clamped to [10, 90];
`resizemaster(0)` leaves the master size unchanged. -/
theorem resizemaster_master_size (fuel : Nat) (s : WM) (i : Int) (hi : i ≠ 0) :
    (resizemaster fuel s i).state.master_size = max 10 (min 90 (s.master_size + i)) ∧
    10 ≤ (resizemaster fuel s i).state.master_size ∧
    (resizemaster fuel s i).state.master_size ≤ 90 ∧
    (resizemaster fuel s 0).state.master_size = s.master_size := by
  have key : (resizemaster fuel s i).state.master_size = max 10 (min 90 (s.master_size + i)) := by
    simp only [resizemaster, hi, if_false, retile]
    by_cases h10 : s.master_size + i < 10
    · have h90 : ¬ ((10 : Int) > 90) := by decide
      simp only [h10, if_true, h90, if_false]
      omega
    · by_cases h90 : s.master_size + i > 90
      · simp only [h10, if_false, h90, if_true]
        omega
      · simp only [h10, if_false, h90]
        omega
  refine ⟨key, ?_, ?_, ?_⟩
  · rw [key]; omega
  · rw [key]; omega
  · simp [resizemaster]

theorem resizemaster_master_size_witness :
    (5 : Int) ≠ 0 ∧ (resizemaster 0 startup 5).state.master_size = 10 ∧
    (resizemaster 0 (listed 0 50 0) 25).state.master_size = 75 :=
  ⟨by decide, (resizemaster_master_size 0 startup 5 (by decide)).1,
   (resizemaster_master_size 0 (listed 0 50 0) 25 (by decide)).1⟩

/-- C10 (counterexample): from master size 75 `increase()` yields 85, and from 55
`decrease()` yields 45; both 75 and 55 are left by `resizemaster`. -/
theorem stepped_leaves_50_80 :
    observe 0 [.resizemaster 75] (fun s => s.master_size) = .ok 75 ∧
    observe 0 [.resizemaster 75, .increase] (fun s => s.master_size) = .ok 85 ∧
    observe 0 [.resizemaster 55] (fun s => s.master_size) = .ok 55 ∧
    observe 0 [.resizemaster 55, .decrease] (fun s => s.master_size) = .ok 45 := by
  decide

/-- C10 (amended): from a master size in [50, 80], `increase()` yields at most 89
and `decrease()` at least 41, and every sequence of the two stays in [41, 89];
from a multiple of 10 in [50, 80], `increase()` yields at most 80, `decrease()` at
least 50, and every sequence of the two stays at a multiple of 10 in [50, 80]. -/
theorem stepped_master_size (fuel : Nat) (s : WM)
    (h50 : 50 ≤ s.master_size) (h80 : s.master_size ≤ 80) :
    ((increase fuel s).state.master_size ≤ 89 ∧ 41 ≤ (decrease fuel s).state.master_size ∧
      ∀ cs : List Call, (∀ c ∈ cs, c = .increase ∨ c = .decrease) →
        ∃ s', run fuel s cs = .ok s' ∧ 41 ≤ s'.master_size ∧ s'.master_size ≤ 89) ∧
    (s.master_size % 10 = 0 →
      (increase fuel s).state.master_size ≤ 80 ∧ 50 ≤ (decrease fuel s).state.master_size ∧
      ∀ cs : List Call, (∀ c ∈ cs, c = .increase ∨ c = .decrease) →
        ∃ s', run fuel s cs = .ok s' ∧ 50 ≤ s'.master_size ∧ s'.master_size ≤ 80 ∧
          s'.master_size % 10 = 0) := by
  refine ⟨⟨?_, ?_, ?_⟩, fun h10 => ⟨?_, ?_, ?_⟩⟩
  · rw [increase_master_size]; split <;> omega
  · rw [decrease_master_size]; split <;> omega
  · intro cs hcs
    exact run_stepped_invariant (fun m => 41 ≤ m ∧ m ≤ 89) fuel
      (fun s hs => by rw [increase_master_size]; split <;> omega)
      (fun s hs => by rw [decrease_master_size]; split <;> omega) cs s hcs ⟨by omega, by omega⟩
  · rw [increase_master_size]; split <;> omega
  · rw [decrease_master_size]; split <;> omega
  · intro cs hcs
    exact run_stepped_invariant (fun m => 50 ≤ m ∧ m ≤ 80 ∧ m % 10 = 0) fuel
      (fun s hs => by rw [increase_master_size]; split <;> omega)
      (fun s hs => by rw [decrease_master_size]; split <;> omega) cs s hcs ⟨h50, h80, h10⟩

theorem stepped_master_size_witness :
    (increase 0 (listed 0 70 0)).state.master_size ≤ 80 ∧
    50 ≤ (decrease 0 (listed 0 70 0)).state.master_size ∧
    ∃ s', run 0 (listed 0 70 0) [.increase, .increase, .decrease] = .ok s' ∧
      50 ≤ s'.master_size ∧ s'.master_size ≤ 80 ∧ s'.master_size % 10 = 0 := by
  have h := (stepped_master_size 0 (listed 0 70 0) (by decide) (by decide)).2 (by decide)
  exact ⟨h.1, h.2.1, h.2.2 [.increase, .increase, .decrease] (by decide)⟩

/-! ### Lemmas on doubly linked segments and the list handlers -/

theorem Seg.empty_iff {h : Heap} {pv p q : Ptr} : Seg h pv p [] q ↔ p = q := by
  simp [Seg]

theorem Seg.step_iff {h : Heap} {pv p q : Ptr} {a : Addr} {l : List Addr} :
    Seg h pv p (a :: l) q ↔
      p = some a ∧ ∃ c, h a = some c ∧ c.prev = pv ∧ Seg h (some a) c.next l q := by
  simp only [Seg]
  cases hc : h a <;> simp

theorem lastPtr_append (pv : Ptr) (l₁ l₂ : List Addr) :
    lastPtr pv (l₁ ++ l₂) = lastPtr (lastPtr pv l₁) l₂ := by
  induction l₁ generalizing pv with
  | nil => rfl
  | cons a l ih => simp [lastPtr, ih]

theorem lastPtr_concat (pv : Ptr) (l : List Addr) (a : Addr) :
    lastPtr pv (l ++ [a]) = some a := by
  rw [lastPtr_append]; rfl

theorem Seg.append_iff {h : Heap} {q : Ptr} {l₂ : List Addr} :
    ∀ {l₁ : List Addr} {pv p : Ptr},
      Seg h pv p (l₁ ++ l₂) q ↔ ∃ m, Seg h pv p l₁ m ∧ Seg h (lastPtr pv l₁) m l₂ q
  | [], pv, p => by simp [Seg.empty_iff, lastPtr]
  | a :: l₁, pv, p => by
    simp only [List.cons_append, Seg.step_iff, lastPtr]
    constructor
    · rintro ⟨hp, c, hc, hv, hs⟩
      obtain ⟨m, h1, h2⟩ := Seg.append_iff.mp hs
      exact ⟨m, ⟨hp, c, hc, hv, h1⟩, h2⟩
    · rintro ⟨m, ⟨hp, c, hc, hv, h1⟩, h2⟩
      exact ⟨hp, c, hc, hv, Seg.append_iff.mpr ⟨m, h1, h2⟩⟩

/-- A segment only depends on the cells it visits. -/
theorem Seg.frame {h h' : Heap} : ∀ {l : List Addr} {pv p q : Ptr},
    (∀ a ∈ l, h' a = h a) → Seg h pv p l q → Seg h' pv p l q
  | [], _, _, _, _, hs => by simpa [Seg.empty_iff] using hs
  | a :: l, pv, p, q, hf, hs => by
    rw [Seg.step_iff] at hs ⊢
    obtain ⟨hp, c, hc, hv, ht⟩ := hs
    exact ⟨hp, c, by rw [hf a (List.mem_cons_self _ _)]; exact hc, hv,
      Seg.frame (fun b hb => hf b (List.mem_cons_of_mem _ hb)) ht⟩

theorem Seg.chain {h : Heap} : ∀ {l : List Addr} {pv p : Ptr},
    Seg h pv p l none → Chain h p l
  | [], _, _, hs => by simpa [Seg.empty_iff, Chain.nil_iff] using hs
  | a :: l, pv, p, hs => by
    rw [Seg.step_iff] at hs
    rw [Chain.cons_iff]
    obtain ⟨hp, c, hc, _, ht⟩ := hs
    exact ⟨hp, c, hc, Seg.chain ht⟩

theorem Chain.nodup {h : Heap} : ∀ {l : List Addr} {p : Ptr}, Chain h p l → l.Nodup
  | [], _, _ => List.nodup_nil
  | a :: l, p, hl => by
    have hnm := Chain.head_not_mem hl
    rw [Chain.cons_iff] at hl
    obtain ⟨_, c, _, ht⟩ := hl
    exact List.nodup_cons.mpr ⟨hnm, Chain.nodup ht⟩

theorem DList.distinct {h : Heap} {p : Ptr} {l : List Addr} (hl : DList h p l) : l.Nodup :=
  Chain.nodup (Seg.chain hl)

theorem Seg.live {h : Heap} : ∀ {l : List Addr} {pv p q : Ptr} {a : Addr},
    Seg h pv p l q → a ∈ l → ∃ c, h a = some c
  | [], _, _, _, _, _, ha => by simp at ha
  | b :: l, pv, p, q, a, hs, ha => by
    rw [Seg.step_iff] at hs
    obtain ⟨_, c, hc, _, ht⟩ := hs
    rcases List.mem_cons.mp ha with rfl | hm
    · exact ⟨c, hc⟩
    · exact Seg.live ht hm

/-- The start of a segment is its first cell, or its end when it is empty. -/
theorem Seg.start_eq {h : Heap} {l : List Addr} {pv p q : Ptr} (hs : Seg h pv p l q) :
    p = firstPtr l q := by
  cases l with
  | nil => simpa [Seg.empty_iff, firstPtr] using hs
  | cons a l => rw [Seg.step_iff] at hs; exact hs.1

theorem list_nil_or_snoc (l : List Addr) : l = [] ∨ ∃ L b, l = L ++ [b] := by
  rcases List.eq_nil_or_concat l with h | ⟨L, b, h⟩
  · exact Or.inl h
  · exact Or.inr ⟨L, b, by rw [h, List.concat_eq_append]⟩

theorem winOf_set (h : Heap) (a : Addr) (c' : client) (hw : c'.win = winOf h a) (x : Addr) :
    winOf (h.set a (some c')) x = winOf h x := by
  by_cases hx : x = a
  · subst hx; simp [winOf, Heap.set, hw]
  · simp [winOf, Heap.set, hx]

theorem unlink_spec {h : Heap} {hd : Ptr} {A B : List Addr} {c : Addr}
    (hl : Seg h none hd (A ++ c :: B) none) :
    ∃ h1 cc, h c = some cc ∧ unlink h (some c) = .ok h1 ∧ h1 c = some cc ∧
      cc.prev = lastPtr none A ∧ cc.next = B.head? ∧
      Seg h1 none (if A = [] then cc.next else hd) (A ++ B) none ∧
      (∀ x, x ∉ A ++ c :: B → h1 x = h x) ∧ (∀ x, winOf h1 x = winOf h x) := by
  have hnd := (Seg.chain hl).nodup
  rcases list_nil_or_snoc A with rfl | ⟨A0, a, rfl⟩
  · cases B with
    | nil =>
      simp only [List.nil_append, Seg.step_iff, Seg.empty_iff] at hl
      obtain ⟨hhd, cc, hc, e1, e2⟩ := hl
      refine ⟨h, cc, hc, ?_, hc, e1, e2, ?_, fun _ _ => rfl, fun _ => rfl⟩
      · simp [unlink_eq, load, hc, e1, e2, Except.bind]
      · simp [Seg.empty_iff, e2]
    | cons b B0 =>
      simp only [List.nil_append, Seg.step_iff] at hl
      obtain ⟨hhd, cc, hc, e1, e2, cb, hb, e3, hs⟩ := hl
      simp only [List.nil_append, List.nodup_cons, List.mem_cons, not_or] at hnd
      obtain ⟨⟨hcb, hcB⟩, hbB, -⟩ := hnd
      refine ⟨h.set b (some { cb with prev := none }), cc, hc, ?_, ?_, e1, e2, ?_, ?_, ?_⟩
      · simp [unlink_eq, load, hc, e1, e2, Except.bind, store_prev, hb, bind, pure, Except.pure]
      · simp [Heap.set, hcb, hc]
      · simp only [if_true, List.nil_append, e2]
        rw [Seg.step_iff]
        refine ⟨rfl, { cb with prev := none }, by simp [Heap.set], rfl, Seg.frame ?_ hs⟩
        intro x hx
        simp [Heap.set, ne_of_mem_of_not_mem hx hbB]
      · intro x hx
        simp only [List.nil_append, List.mem_cons, not_or] at hx
        simp [Heap.set, hx.2.1]
      · exact winOf_set _ _ _ (by simp [winOf, hb])
  · have hne : A0 ++ [a] ≠ [] := by simp
    simp only [hne, if_false, List.append_assoc, List.singleton_append]
    rw [List.append_assoc, List.singleton_append] at hl hnd
    obtain ⟨m, hs0, hs1⟩ := Seg.append_iff.mp hl
    cases B with
    | nil =>
      simp only [Seg.step_iff, Seg.empty_iff] at hs1
      obtain ⟨rfl, ca, ha, e0, e1, cc, hc, e2, e3⟩ := hs1
      simp only [List.nodup_append, List.nodup_cons, List.mem_cons, List.mem_singleton,
        List.not_mem_nil, not_or, or_false, List.disjoint_cons_right,
        List.disjoint_nil_right, List.nodup_nil, not_false_eq_true, and_true, true_and]
        at hnd
      obtain ⟨-, hac, haA, hcA⟩ := hnd
      refine ⟨h.set a (some { ca with next := none }), cc, hc, ?_, ?_, ?_, e3, ?_, ?_, ?_⟩
      · simp [unlink_eq, load, hc, e2, e3, Except.bind, store_next, ha, bind, pure, Except.pure,
          Heap.set, Ne.symm hac]
      · simp [Heap.set, Ne.symm hac, hc]
      · rw [lastPtr_concat, e2]
      · rw [Seg.append_iff]
        refine ⟨some a, Seg.frame ?_ hs0, ?_⟩
        · intro x hx
          simp [Heap.set, ne_of_mem_of_not_mem hx haA]
        · rw [Seg.step_iff]
          exact ⟨rfl, { ca with next := none }, by simp [Heap.set], e0, by simp [Seg.empty_iff]⟩
      · intro x hx
        simp only [List.mem_append, List.mem_cons, List.not_mem_nil, not_or, or_false] at hx
        simp [Heap.set, hx.2.1]
      · exact winOf_set _ _ _ (by simp [winOf, ha])
    | cons b B0 =>
      simp only [Seg.step_iff] at hs1
      obtain ⟨rfl, ca, ha, e0, e1, cc, hc, e2, e3, cb, hb, e4, hs2⟩ := hs1
      simp only [List.nodup_append, List.nodup_cons, List.mem_cons, List.mem_singleton,
        List.not_mem_nil, not_or, or_false, List.disjoint_cons_right,
        List.disjoint_nil_right, List.nodup_nil, not_false_eq_true, and_true, true_and]
        at hnd
      obtain ⟨-, ⟨⟨hac, hab, haB⟩, ⟨hcb, hcB⟩, hbB, -⟩, haA, hcA, hbA, -⟩ := hnd
      refine ⟨(h.set a (some { ca with next := some b })).set b (some { cb with prev := some a }),
        cc, hc, ?_, ?_, ?_, e3, ?_, ?_, ?_⟩
      · simp [unlink_eq, load, hc, e2, e3, Except.bind, store_next, store_prev, ha, hb, bind,
          pure, Except.pure, Heap.set, Ne.symm hac, Ne.symm hab]
      · simp [Heap.set, hcb, Ne.symm hac, hc]
      · rw [lastPtr_concat, e2]
      · rw [Seg.append_iff]
        refine ⟨some a, Seg.frame ?_ hs0, ?_⟩
        · intro x hx
          simp [Heap.set, ne_of_mem_of_not_mem hx haA, ne_of_mem_of_not_mem hx hbA]
        · rw [Seg.step_iff]
          refine ⟨rfl, { ca with next := some b }, by simp [Heap.set, hab], e0, ?_⟩
          rw [Seg.step_iff]
          refine ⟨rfl, { cb with prev := some a }, by simp [Heap.set], rfl, Seg.frame ?_ hs2⟩
          intro x hx
          simp [Heap.set, ne_of_mem_of_not_mem hx haB, ne_of_mem_of_not_mem hx hbB]
      · intro x hx
        simp only [List.mem_append, List.mem_cons, not_or] at hx
        simp [Heap.set, hx.2.1, hx.2.2.2.1]
      · intro x
        rw [winOf_set _ _ _ (by simp [winOf, Heap.set, Ne.symm hab, hb]),
          winOf_set _ _ _ (by simp [winOf, ha])]

/-- Linking a cell `c` in front of the list `b :: B`. -/
theorem Seg.insert_front {h H : Heap} {b c : Addr} {B : List Addr} {cb : client} {w : Window}
    (hs : Seg h none (some b) (b :: B) none) (hb : h b = some cb)
    (Hc : H c = some ⟨some b, none, w⟩) (Hb : H b = some { cb with prev := some c })
    (HB : ∀ x ∈ B, H x = h x) :
    Seg H none (some c) (c :: b :: B) none := by
  rw [Seg.step_iff] at hs
  obtain ⟨-, cb', hb', -, hs1⟩ := hs
  rw [hb] at hb'
  cases hb'
  rw [Seg.step_iff]
  refine ⟨rfl, _, Hc, rfl, ?_⟩
  rw [Seg.step_iff]
  exact ⟨rfl, _, Hb, rfl, Seg.frame HB hs1⟩

/-- Linking a cell `c` between the neighbours `a` and `b`. -/
theorem Seg.insert_mid {h H : Heap} {hd : Ptr} {a b c : Addr} {A B : List Addr}
    {ca cb : client} {w : Window}
    (hs : Seg h none hd (A ++ a :: b :: B) none) (ha : h a = some ca) (hb : h b = some cb)
    (Hc : H c = some ⟨some b, some a, w⟩) (Ha : H a = some { ca with next := some c })
    (Hb : H b = some { cb with prev := some c })
    (HA : ∀ x ∈ A, H x = h x) (HB : ∀ x ∈ B, H x = h x) :
    Seg H none hd (A ++ a :: c :: b :: B) none := by
  rw [Seg.append_iff] at hs ⊢
  obtain ⟨m, hs0, hs1⟩ := hs
  simp only [Seg.step_iff] at hs1
  obtain ⟨rfl, ca', ha', e0, -, cb', hb', -, hs2⟩ := hs1
  rw [ha] at ha'
  cases ha'
  rw [hb] at hb'
  cases hb'
  refine ⟨some a, Seg.frame HA hs0, ?_⟩
  rw [Seg.step_iff]
  refine ⟨rfl, _, Ha, e0, ?_⟩
  rw [Seg.step_iff]
  refine ⟨rfl, _, Hc, rfl, ?_⟩
  rw [Seg.step_iff]
  exact ⟨rfl, _, Hb, rfl, Seg.frame HB hs2⟩

/-- Linking a cell `c` after the last cell `a`. -/
theorem Seg.insert_back {h H : Heap} {hd : Ptr} {a c : Addr} {A : List Addr}
    {ca : client} {w : Window}
    (hs : Seg h none hd (A ++ [a]) none) (ha : h a = some ca)
    (Hc : H c = some ⟨none, some a, w⟩) (Ha : H a = some { ca with next := some c })
    (HA : ∀ x ∈ A, H x = h x) :
    Seg H none hd (A ++ [a, c]) none := by
  rw [Seg.append_iff] at hs ⊢
  obtain ⟨m, hs0, hs1⟩ := hs
  simp only [Seg.step_iff, Seg.empty_iff] at hs1
  obtain ⟨rfl, ca', ha', e0, -⟩ := hs1
  rw [ha] at ha'
  cases ha'
  refine ⟨some a, Seg.frame HA hs0, ?_⟩
  rw [Seg.step_iff]
  refine ⟨rfl, _, Ha, e0, ?_⟩
  rw [Seg.step_iff]
  exact ⟨rfl, _, Hc, rfl, by simp [Seg.empty_iff]⟩

/-- The tail walk on a list ending with `t` arrives at `t`. -/
theorem last_client_seg {h : Heap} {t : Addr} : ∀ {A : List Addr} {pv p : Ptr} {fuel : Nat},
    Seg h pv p (A ++ [t]) none → A.length ≤ fuel → last_client h fuel p = .ok (some t)
  | [], pv, p, fuel, hs, _ => by
    simp only [List.nil_append, Seg.step_iff, Seg.empty_iff] at hs
    obtain ⟨rfl, ct, ht, -, e⟩ := hs
    cases fuel <;> simp [last_client, load, ht, e, bind, Except.bind, pure, Except.pure]
  | a :: A, pv, p, 0, _, hf => by simp at hf
  | a :: A, pv, p, fuel + 1, hs, hf => by
    rw [List.cons_append, Seg.step_iff] at hs
    obtain ⟨rfl, ca, ha, -, hs1⟩ := hs
    have hn : ca.next ≠ none := by
      have := Seg.start_eq hs1
      cases A <;> simp [firstPtr] at this <;> simp [this]
    have ih := last_client_seg hs1 (by simpa using hf)
    simp [last_client, load, ha, hn, bind, Except.bind, ih]

/-- The scan of `remove_window` passes over clients whose window is not `w`. -/
theorem remove_scan_skip {w : Window} {s : WM} {m : Ptr} :
    ∀ {A : List Addr} {pv p : Ptr} {fuel : Nat}, Seg s.heap pv p A m →
      (∀ a ∈ A, winOf s.heap a ≠ w) → A.length ≤ fuel →
      remove_scan w fuel s p = remove_scan w (fuel - A.length) s m
  | [], pv, p, fuel, hs, _, _ => by
    rw [Seg.empty_iff] at hs
    subst hs
    simp
  | a :: A, pv, p, 0, _, _, hf => by simp at hf
  | a :: A, pv, p, fuel + 1, hs, hw, hf => by
    rw [Seg.step_iff] at hs
    obtain ⟨rfl, ca, ha, -, hs1⟩ := hs
    have hwa : ca.win ≠ w := by
      have := hw a (List.mem_cons_self _ _)
      rwa [winOf_eq ha] at this
    have ih := remove_scan_skip hs1 (fun b hb => hw b (List.mem_cons_of_mem _ hb))
      (by simpa using hf)
    simp only [remove_scan, load, ha, hwa, if_false, bind, Except.bind, ih, List.length_cons,
      Nat.add_sub_add_right]

theorem remove_scan_null (w : Window) (fuel : Nat) (s : WM) :
    remove_scan w fuel s none = .ok s := by
  cases fuel <;> rfl

theorem destroynotify_eq (fuel : Nat) (s : WM) (w : Window) :
    destroynotify fuel s w = remove_window fuel s w := rfl

theorem lastPtr_none_eq_none {A : List Addr} : lastPtr none A = none ↔ A = [] := by
  rcases list_nil_or_snoc A with rfl | ⟨A0, a, rfl⟩
  · simp [lastPtr]
  · simp [lastPtr_concat]

/-- With a predecessor, the first inner `if` of `move_up` stores what `unlink` stores. -/
theorem move_up_detach_eq_unlink {h : Heap} {c p : Addr} {cc cp : client}
    (hc : h c = some cc) (hp : h p = some cp) (ecp : cc.prev = some p) (hpc : p ≠ c)
    (hn : ∀ n, cc.next = some n → (h n).isSome = true ∧ n ≠ p) :
    move_up_detach h (some c) = unlink h (some c) := by
  cases ecn : cc.next with
  | none =>
    simp [move_up_detach, unlink_eq, get_next, get_prev, load, store_next, hc, hp, ecp, ecn,
      bind, Except.bind, pure, Except.pure, Heap.set, Ne.symm hpc]
  | some n =>
    obtain ⟨hl, hnp⟩ := hn n ecn
    obtain ⟨cn, hcn, -⟩ := load_of_live hl
    by_cases hnc : n = c
    · subst hnc
      rw [hc] at hcn
      cases hcn
      simp [move_up_detach, unlink_eq, get_next, get_prev, load, store_next, store_prev, hc,
        hp, ecp, ecn, bind, Except.bind, pure, Except.pure, Heap.set, Ne.symm hpc]
    · simp [move_up_detach, unlink_eq, get_next, get_prev, load, store_next, store_prev, hc,
        hp, ecp, ecn, hcn, bind, Except.bind, pure, Except.pure, Heap.set, Ne.symm hpc, hnp,
        hnc]

/-- The next pointer of the head of a list of at least two cells is not `NULL`. -/
theorem DList.get_next_head {h : Heap} {hd : Ptr} {L : List Addr} (hl : DList h hd L)
    (hlen : 2 ≤ L.length) : ∃ y, get_next h hd = .ok (some y) := by
  match L, hl, hlen with
  | a :: b :: L', hl, _ =>
    simp only [DList, Seg.step_iff] at hl
    obtain ⟨rfl, ca, ha, -, e, -⟩ := hl
    exact ⟨b, by simp [get_next, load, ha, e, bind, Except.bind, pure, Except.pure]⟩

/-- What `move_up` does when current has a predecessor: the two change places. -/
theorem move_up_swap (fuel : Nat) (s : WM) (A B : List Addr) (p c : Addr)
    (hl : DList s.heap s.head (A ++ p :: c :: B)) (hcur : s.current = some c) :
    ∃ o, move_up fuel s = .ok o ∧ o.tiled = tile fuel o.state ∧
      DList o.state.heap o.state.head (A ++ c :: p :: B) ∧
      o.state = { s with heap := o.state.heap, head := o.state.head } ∧
      (∀ x, winOf o.state.heap x = winOf s.heap x) ∧
      (∀ x, x ∉ A ++ p :: c :: B → o.state.heap x = s.heap x) := by
  have hnd := DList.distinct hl
  obtain ⟨y, hhn⟩ := DList.get_next_head hl (by simp only [List.length_append, List.length_cons]; omega)
  have hl' : Seg s.heap none s.head ((A ++ [p]) ++ c :: B) none := by
    simpa [DList] using hl
  obtain ⟨h1, cc, hc, hun, h1c, ecp, ecn, hseg1, hfr1, hwin1⟩ := unlink_spec hl'
  rw [lastPtr_concat] at ecp
  have hne : A ++ [p] ≠ [] := by simp
  simp only [hne, if_false, List.append_assoc, List.singleton_append] at hseg1
  simp only [List.nodup_append, List.nodup_cons, List.mem_cons, not_or,
    List.disjoint_cons_right] at hnd
  obtain ⟨hndA, ⟨⟨hpc, hpB⟩, hcB, hndB⟩, hpA, hcA, hAB⟩ := hnd
  obtain ⟨cp, hp⟩ := Seg.live hl (a := p) (by simp)
  have hdet : move_up_detach s.heap (some c) = .ok h1 := by
    rw [move_up_detach_eq_unlink hc hp ecp hpc, hun]
    intro n hn
    rw [ecn] at hn
    cases B with
    | nil => simp at hn
    | cons b B' =>
      simp at hn
      subst hn
      obtain ⟨cb, hb⟩ := Seg.live hl (a := b) (by simp)
      simp only [List.mem_cons, not_or] at hpB
      exact ⟨by simp [hb], fun e => hpB.1 e.symm⟩
  have hgp : get_prev s.heap (some c) = .ok (some p) := by
    simp [get_prev, load, hc, ecp, bind, Except.bind, pure, Except.pure]
  -- the cells of the list after the first block
  obtain ⟨m, hsA1, hsp1⟩ := Seg.append_iff.mp hseg1
  rw [Seg.step_iff] at hsp1
  obtain ⟨rfl, cp1, hp1, ep1, hsB1⟩ := hsp1
  rcases list_nil_or_snoc A with rfl | ⟨A0, pp, rfl⟩
  · -- `p` is the head
    have hhd : s.head = some p := by simpa [Seg.empty_iff] using hsA1
    simp only [lastPtr] at ep1
    have hatt : ∀ t : WM, t.heap = h1 → t.head = some p →
        move_up_attach t (some c) = .ok { t with
          heap := ((h1.set c (some { cc with next := some p })).set c
            (some { cc with next := some p, prev := none })).set p
            (some { cp1 with prev := some c }),
          head := some c } := by
      intro t ht hth
      simp [move_up_attach, get_prev, get_next, load, store_next,
        store_prev, h1c, hp1, ep1, ecp, ht, hth, Heap.set, hpc, Ne.symm hpc, bind, Except.bind,
        pure, Except.pure]
    have hev : move_up fuel s = .ok (retile fuel { s with
        heap := ((h1.set c (some { cc with next := some p })).set c
          (some { cc with next := some p, prev := none })).set p
          (some { cp1 with prev := some c }),
        head := some c }) := by
      simp only [move_up, hcur, hhn, hgp, hdet, bind, Except.bind, pure, Except.pure,
        reduceCtorEq, if_false, ne_eq, not_false_eq_true, if_true]
      rw [hatt { s with heap := h1, current := some c } rfl hhd]
    refine ⟨_, hev, rfl, ?_, rfl, ?_, ?_⟩
    · show Seg _ none (some c) (c :: p :: B) none
      have hs' : Seg h1 none (some p) (p :: B) none := by
        rw [Seg.step_iff]; exact ⟨rfl, cp1, hp1, ep1, hsB1⟩
      exact Seg.insert_front (w := cc.win) hs' hp1 (by simp [retile, Heap.set, Ne.symm hpc])
        (by simp [retile, Heap.set]) (fun x hx => by
          simp [retile, Heap.set, ne_of_mem_of_not_mem hx hpB, ne_of_mem_of_not_mem hx hcB])
    · intro x
      show winOf (((h1.set c _).set c _).set p _) x = _
      rw [winOf_set _ _ _ (by simp [winOf, Heap.set, hpc, hp1]),
        winOf_set _ _ _ (by simp [winOf, Heap.set]), winOf_set _ _ _ (by simp [winOf, h1c]),
        hwin1]
    · intro x hx
      simp only [List.nil_append, List.mem_cons, not_or] at hx
      show (((h1.set c _).set c _).set p _) x = _
      simp only [Heap.set, hx.1, hx.2.1, if_false]
      exact hfr1 x (by simp [hx.1, hx.2.1, hx.2.2])
  · -- `p` has a predecessor `pp`
    rw [lastPtr_concat] at ep1
    simp only [List.mem_append, List.mem_singleton, not_or, List.nodup_append,
      List.nodup_cons, List.not_mem_nil, not_false_eq_true, List.nodup_nil, and_true,
      List.disjoint_cons_right, List.disjoint_nil_right, true_and,
      List.disjoint_append_left, List.singleton_disjoint] at hpA hcA hAB hndA
    obtain ⟨hpA0, hppp⟩ := hpA
    obtain ⟨hcA0, hppc⟩ := hcA
    obtain ⟨hA0B, hppB⟩ := hAB
    obtain ⟨-, hppA0⟩ := hndA
    obtain ⟨m, hsA0, hspp⟩ := Seg.append_iff.mp hsA1
    simp only [Seg.step_iff, Seg.empty_iff] at hspp
    obtain ⟨rfl, cpp1, hpp1, epp1, epn1⟩ := hspp
    have hppp' : pp ≠ p := Ne.symm hppp
    have hppc' : pp ≠ c := Ne.symm hppc
    have hpc' : c ≠ p := Ne.symm hpc
    have hatt : ∀ t : WM, t.heap = h1 →
        move_up_attach t (some c) = .ok { t with
          heap := (((h1.set pp (some { cpp1 with next := some c })).set c
            (some { cc with next := some p })).set c
            (some { cc with next := some p, prev := some pp })).set p
            (some { cp1 with prev := some c }) } := by
      intro t ht
      simp [move_up_attach, get_prev, get_next, load, store_next,
        store_prev, h1c, hp1, hpp1, ep1, ecp, ht, Heap.set, hpc, Ne.symm hpc, hppp,
        Ne.symm hppp, hppc, Ne.symm hppc, bind, Except.bind, pure, Except.pure]
    have hev : move_up fuel s = .ok (retile fuel { s with
        heap := (((h1.set pp (some { cpp1 with next := some c })).set c
            (some { cc with next := some p })).set c
            (some { cc with next := some p, prev := some pp })).set p
            (some { cp1 with prev := some c }) }) := by
      simp only [move_up, hcur, hhn, hgp, hdet, bind, Except.bind, pure, Except.pure,
        reduceCtorEq, if_false, ne_eq, not_false_eq_true, if_true]
      rw [hatt { s with heap := h1, current := some c } rfl]
    refine ⟨_, hev, rfl, ?_, rfl, ?_, ?_⟩
    · show Seg _ none s.head ((A0 ++ [pp]) ++ c :: p :: B) none
      rw [List.append_assoc, List.singleton_append]
      have hs' : Seg h1 none s.head (A0 ++ pp :: p :: B) none := by
        simpa using hseg1
      exact Seg.insert_mid (w := cc.win) hs' hpp1 hp1
        (by simp [retile, Heap.set, hpc'])
        (by simp [retile, Heap.set, hppp', hppc'])
        (by simp [retile, Heap.set])
        (fun x hx => by
          simp [retile, Heap.set, ne_of_mem_of_not_mem hx hpA0, ne_of_mem_of_not_mem hx hcA0,
            ne_of_mem_of_not_mem hx hppA0])
        (fun x hx => by
          simp [retile, Heap.set, ne_of_mem_of_not_mem hx hpB, ne_of_mem_of_not_mem hx hcB,
            ne_of_mem_of_not_mem hx hppB])
    · intro x
      show winOf ((((h1.set pp _).set c _).set c _).set p _) x = _
      rw [winOf_set _ _ _ (by simp [winOf, Heap.set, hpc, hppp, hp1]),
        winOf_set _ _ _ (by simp [winOf, Heap.set]),
        winOf_set _ _ _ (by simp [winOf, Heap.set, hppc, h1c]),
        winOf_set _ _ _ (by simp [winOf, hpp1]), hwin1]
    · intro x hx
      simp only [List.mem_append, List.mem_cons, List.mem_singleton, not_or, not_false_eq_true,
        List.not_mem_nil, or_false] at hx
      show ((((h1.set pp _).set c _).set c _).set p _) x = _
      simp only [Heap.set, hx.1.2, hx.2.1, hx.2.2.1, if_false]
      exact hfr1 x (by simp [hx.1.1, hx.1.2, hx.2.1, hx.2.2.1, hx.2.2.2])

/-- The first inner `if` of `move_down` stores what `unlink` stores, and moves the
head when current is the head. -/
theorem move_down_detach_eq_unlink {t : WM} {c n : Addr} {cc cn : client}
    (hc : t.heap c = some cc) (hn : t.heap n = some cn) (ecn : cc.next = some n)
    (hp : ∀ p, cc.prev = some p → (t.heap p).isSome = true ∧ p ≠ c ∧ p ≠ n) :
    move_down_detach t (some c) = (unlink t.heap (some c)).bind fun h1 =>
      .ok { t with heap := h1, head := (if cc.prev = none then some n else t.head) } := by
  cases ecp : cc.prev with
  | none =>
    simp [move_down_detach, unlink_eq, get_next, get_prev, load, store_prev, hc, hn, ecp, ecn,
      bind, Except.bind, pure, Except.pure, Heap.set]
  | some p =>
    obtain ⟨hl, hpc, hpn⟩ := hp p ecp
    obtain ⟨cp, hcp, -⟩ := load_of_live hl
    simp [move_down_detach, unlink_eq, get_next, get_prev, load, store_next, store_prev, hc,
      hn, hcp, ecp, ecn, bind, Except.bind, pure, Except.pure, Heap.set, hpc, hpn,
      Ne.symm hpc, Ne.symm hpn]

/-- What `move_down` does when current has a successor: the two change places. -/
theorem move_down_swap (fuel : Nat) (s : WM) (A B : List Addr) (c n : Addr)
    (hl : DList s.heap s.head (A ++ c :: n :: B)) (hcur : s.current = some c) :
    ∃ o, move_down fuel s = .ok o ∧ o.tiled = tile fuel o.state ∧
      DList o.state.heap o.state.head (A ++ n :: c :: B) ∧
      o.state = { s with heap := o.state.heap, head := o.state.head } ∧
      (∀ x, winOf o.state.heap x = winOf s.heap x) ∧
      (∀ x, x ∉ A ++ c :: n :: B → o.state.heap x = s.heap x) := by
  have hnd := DList.distinct hl
  obtain ⟨y, hhn⟩ := DList.get_next_head hl
    (by simp only [List.length_append, List.length_cons]; omega)
  obtain ⟨h1, cc, hc, hun, h1c, ecp, ecn, hseg1, hfr1, hwin1⟩ := unlink_spec hl
  simp only [List.head?_cons] at ecn
  simp only [List.nodup_append, List.nodup_cons, List.mem_cons, not_or,
    List.disjoint_cons_right] at hnd
  obtain ⟨hndA, ⟨⟨hcn, hcB⟩, hnB, hndB⟩, hcA, hnA, hAB⟩ := hnd
  have hnc : n ≠ c := Ne.symm hcn
  obtain ⟨cn, hn⟩ := Seg.live hl (a := n) (by simp)
  have hgn : get_next s.heap (some c) = .ok (some n) := by
    simp [get_next, load, hc, ecn, bind, Except.bind, pure, Except.pure]
  have hdet : ∀ t : WM, t.heap = s.heap → t.head = s.head →
      move_down_detach t (some c) = .ok { t with
        head := (if A = [] then some n else s.head), heap := h1 } := by
    intro t ht hth
    rw [move_down_detach_eq_unlink (t := t) (by rw [ht]; exact hc) (by rw [ht]; exact hn) ecn,
      ht, hun]
    · simp only [Except.bind, ecp, lastPtr_none_eq_none, hth]
    · intro p hp
      rw [ecp] at hp
      rcases list_nil_or_snoc A with rfl | ⟨A0, a, rfl⟩
      · simp [lastPtr] at hp
      · rw [lastPtr_concat] at hp
        cases hp
        obtain ⟨ca, ha⟩ := Seg.live hl (a := p) (by simp)
        rw [ht]
        simp only [List.mem_append, List.mem_singleton, not_or] at hcA hnA
        exact ⟨by simp [ha], Ne.symm hcA.2, Ne.symm hnA.2⟩
  -- the cells of the list after the first block
  obtain ⟨m, hsA1, hsn1⟩ := Seg.append_iff.mp hseg1
  rw [Seg.step_iff] at hsn1
  obtain ⟨hm, cn1, hn1, en1, hsB1⟩ := hsn1
  have hstart1 : (if A = [] then cc.next else s.head) = (if A = [] then some n else s.head) := by
    rw [ecn]
  rw [hstart1] at hseg1
  cases B with
  | nil =>
    rw [Seg.empty_iff] at hsB1
    have hatt : move_down_attach h1 (some c) = .ok
        (((h1.set n (some { cn1 with next := some c })).set c
          (some { cc with prev := some n })).set c
          (some { cc with prev := some n, next := none })) := by
      simp [move_down_attach, get_prev, get_next, load, store_next, store_prev, h1c, hn1, hsB1,
        ecn, Heap.set, hnc, hcn, bind, Except.bind, pure, Except.pure]
    have hev : move_down fuel s = .ok (retile fuel { s with
        heap := (((h1.set n (some { cn1 with next := some c })).set c
          (some { cc with prev := some n })).set c
          (some { cc with prev := some n, next := none })),
        head := (if A = [] then some n else s.head) }) := by
      simp only [move_down, hcur, hhn, hgn, bind, Except.bind, pure, Except.pure,
        reduceCtorEq, if_false, ne_eq, not_false_eq_true, if_true]
      rw [hdet s rfl rfl]
      simp only [hatt, hcur]
    refine ⟨_, hev, rfl, ?_, rfl, ?_, ?_⟩
    · show Seg _ none _ (A ++ [n, c]) none
      exact Seg.insert_back (w := cc.win) hseg1 hn1
        (by simp [retile, Heap.set])
        (by simp [retile, Heap.set, hnc])
        (fun x hx => by
          simp [retile, Heap.set, ne_of_mem_of_not_mem hx hnA, ne_of_mem_of_not_mem hx hcA])
    · intro x
      show winOf (((h1.set n _).set c _).set c _) x = _
      rw [winOf_set _ _ _ (by simp [winOf, Heap.set]),
        winOf_set _ _ _ (by simp [winOf, Heap.set, hcn, h1c]),
        winOf_set _ _ _ (by simp [winOf, hn1]), hwin1]
    · intro x hx
      have hx' := hx
      simp only [List.mem_append, List.mem_cons, List.not_mem_nil, or_false, not_or] at hx'
      show (((h1.set n _).set c _).set c _) x = _
      simp only [Heap.set, hx'.2.1, hx'.2.2, if_false]
      exact hfr1 x hx
  | cons b B0 =>
    rw [Seg.step_iff] at hsB1
    obtain ⟨enb, cb1, hb1, eb1, hsB0⟩ := hsB1
    simp only [List.mem_cons, not_or] at hcB hnB
    obtain ⟨hcb, hcB0⟩ := hcB
    obtain ⟨hnb, hnB0⟩ := hnB
    have hbc : b ≠ c := Ne.symm hcb
    have hbn : b ≠ n := Ne.symm hnb
    have hbB0 : b ∉ B0 := (List.nodup_cons.mp hndB).1
    have hatt : move_down_attach h1 (some c) = .ok
        ((((h1.set b (some { cb1 with prev := some c })).set c
          (some { cc with prev := some n })).set c
          (some { cc with prev := some n, next := some b })).set n
          (some { cn1 with next := some c })) := by
      simp [move_down_attach, get_prev, get_next, load, store_next, store_prev, h1c, hn1, hb1,
        enb, ecn, Heap.set, hnc, hcn, hcb, hnb, hbc, hbn, bind, Except.bind, pure, Except.pure]
    have hev : move_down fuel s = .ok (retile fuel { s with
        heap := ((((h1.set b (some { cb1 with prev := some c })).set c
          (some { cc with prev := some n })).set c
          (some { cc with prev := some n, next := some b })).set n
          (some { cn1 with next := some c })),
        head := (if A = [] then some n else s.head) }) := by
      simp only [move_down, hcur, hhn, hgn, bind, Except.bind, pure, Except.pure,
        reduceCtorEq, if_false, ne_eq, not_false_eq_true, if_true]
      rw [hdet s rfl rfl]
      simp only [hatt, hcur]
    refine ⟨_, hev, rfl, ?_, rfl, ?_, ?_⟩
    · show Seg _ none _ (A ++ n :: c :: b :: B0) none
      exact Seg.insert_mid (w := cc.win) hseg1 hn1 hb1
        (by simp [retile, Heap.set, hcn])
        (by simp [retile, Heap.set])
        (by simp [retile, Heap.set, hbc, hbn])
        (fun x hx => by
          simp [retile, Heap.set, ne_of_mem_of_not_mem hx hnA, ne_of_mem_of_not_mem hx hcA,
            ne_of_mem_of_not_mem hx (List.disjoint_cons_right.mp hAB).1])
        (fun x hx => by
          simp [retile, Heap.set, ne_of_mem_of_not_mem hx hnB0, ne_of_mem_of_not_mem hx hcB0,
            ne_of_mem_of_not_mem hx hbB0])
    · intro x
      show winOf ((((h1.set b _).set c _).set c _).set n _) x = _
      rw [winOf_set _ _ _ (by simp [winOf, Heap.set, hnc, hnb, hn1]),
        winOf_set _ _ _ (by simp [winOf, Heap.set]),
        winOf_set _ _ _ (by simp [winOf, Heap.set, hcb, h1c]),
        winOf_set _ _ _ (by simp [winOf, hb1]), hwin1]
    · intro x hx
      have hx' := hx
      simp only [List.mem_append, List.mem_cons, not_or] at hx'
      show ((((h1.set b _).set c _).set c _).set n _) x = _
      simp only [Heap.set, hx'.2.1, hx'.2.2.1, hx'.2.2.2.1, if_false]
      exact hfr1 x hx

/-- Two heaps that hold the same segment with the same windows agree on its cells. -/
theorem Seg.cell_ext {h h' : Heap} : ∀ {l : List Addr} {pv p q : Ptr},
    Seg h pv p l q → Seg h' pv p l q → (∀ x ∈ l, winOf h' x = winOf h x) →
    ∀ x ∈ l, h' x = h x
  | [], _, _, _, _, _, _, x, hx => by simp at hx
  | a :: l, pv, p, q, hs, hs', hw, x, hx => by
    rw [Seg.step_iff] at hs hs'
    obtain ⟨-, c, hc, ev, ht⟩ := hs
    obtain ⟨-, c', hc', ev', ht'⟩ := hs'
    have en : c'.next = c.next := by
      have e1 := Seg.start_eq ht
      have e2 := Seg.start_eq ht'
      rw [e1, e2]
    have ew : c'.win = c.win := by
      have := hw a (List.mem_cons_self _ _)
      rwa [winOf_eq hc, winOf_eq hc'] at this
    have ecell : c' = c := by
      cases c; cases c'; simp_all
    rcases List.mem_cons.mp hx with rfl | hm
    · rw [hc, hc', ecell]
    · rw [en] at ht'
      exact Seg.cell_ext ht ht' (fun y hy => hw y (List.mem_cons_of_mem _ hy)) x hm

/-- A state is determined by its list when the cells outside the list and all
windows agree. -/
theorem DList.heap_ext {h h' : Heap} {hd hd' : Ptr} {L : List Addr}
    (hl : DList h hd L) (hl' : DList h' hd' L) (hw : ∀ x, winOf h' x = winOf h x)
    (hf : ∀ x, x ∉ L → h' x = h x) : h' = h ∧ hd' = hd := by
  have ehd : hd' = hd := by
    rw [Seg.start_eq hl, Seg.start_eq hl']
  subst ehd
  refine ⟨?_, rfl⟩
  funext x
  by_cases hx : x ∈ L
  · exact Seg.cell_ext hl hl' (fun y _ => hw y) x hx
  · exact hf x hx

theorem keypress_loop_eq {α σ : Type} (CLEANMASK : Nat → Nat) (keysym state : Nat) :
    ∀ (keys : List (Key α σ)) (s : σ),
      keypress_loop CLEANMASK keysym state keys s
        = invoke_all (bound_ops (matching CLEANMASK keysym state keys)) s
  | [], s => rfl
  | k :: ks, s => by
    by_cases hm : keysym = k.keysym ∧ CLEANMASK k.mod = CLEANMASK state
    · obtain ⟨rfl, hmask⟩ := hm
      have ih := keypress_loop_eq CLEANMASK k.keysym state ks
      cases hf : k.function with
      | none =>
        simp [keypress_loop, hmask, hf, ih, matching, bound_ops]
      | some f =>
        simp only [keypress_loop, hmask, and_self, if_true, hf, matching, List.filter_cons,
          decide_True, bound_ops, List.filterMap_cons, Option.map_some', invoke_all]
        cases f k.arg s with
        | error e => rfl
        | ok s' => exact ih s'
    · have ih := keypress_loop_eq CLEANMASK keysym state ks
      simp [keypress_loop, hm, ih, matching]

theorem setup_loop_spec : ∀ (k i : Nat) (s : WM), i + k ≤ 10 →
    setup_loop k i s = .ok { s with desktops := fun j =>
      if i ≤ j ∧ j < i + k then ⟨s.master_size, s.mode, none, none⟩ else s.desktops j }
  | 0, i, s, _ => by
    have : (fun j => if i ≤ j ∧ j < i + 0 then (⟨s.master_size, s.mode, none, none⟩ : desktop)
        else s.desktops j) = s.desktops := by
      funext j
      have : ¬ (i ≤ j ∧ j < i + 0) := by omega
      simp [this]
    simp only [setup_loop, this]
  | k + 1, i, s, hk => by
    have hi : i < 10 := by omega
    rw [setup_loop, desktop_index_natCast hi]
    simp only [bind, Except.bind]
    rw [setup_loop_spec k (i + 1) _ (by omega)]
    congr 2
    funext j
    by_cases h1 : i + 1 ≤ j ∧ j < i + 1 + k
    · have h2 : i ≤ j ∧ j < i + (k + 1) := by omega
      simp [h1, h2]
    · by_cases h3 : j = i
      · subst h3
        simp [set_desktop]
      · have h2 : ¬ (i ≤ j ∧ j < i + (k + 1)) := by omega
        simp [h1, h2, set_desktop, h3]

/-- On an empty target, with current the client `c` of a well-formed list that
leaves some number of clients other than one, `client_to_desktop` returns. -/
theorem client_to_desktop_returns_empty {fuel : Nat} {s : WM} {i : Int} {t : Nat}
    {A B : List Addr} {c : Addr}
    (hi : to_unsigned i ≠ s.current_desktop) (ht : desktop_index i = .ok t)
    (hA : s.current_desktop < 10) (he : (s.desktops t).head = none)
    (hl : DList s.heap s.head (A ++ c :: B)) (hcur : s.current = some c)
    (hn : (A ++ B).length ≠ 1) (hf : (A ++ B).length ≤ fuel) :
    ∃ s', returned (client_to_desktop fuel s i) = .ok s' := by
  have hnd := DList.distinct hl
  have hcAB : c ∉ A ++ B := by
    simp only [List.nodup_append, List.nodup_cons, List.disjoint_cons_right] at hnd
    intro hm
    rcases List.mem_append.mp hm with h' | h'
    · exact hnd.2.2.1 h'
    · exact hnd.2.1.1 h'
  have hhead : (some c = s.head) ↔ A = [] := by
    have := Seg.start_eq hl
    cases A with
    | nil => simp [firstPtr] at this; simp [this]
    | cons a A' =>
      simp [firstPtr] at this
      simp only [this, Option.some.injEq, reduceCtorEq, iff_false]
      intro e
      exact hcAB (by simp [e])
  obtain ⟨h1, cc, hc, hun, h1c, -, -, hseg1, -, -⟩ := unlink_spec hl
  obtain ⟨s1, e1, hh1, hd1⟩ := client_to_desktop_add_empty_eq fuel s.current_desktop he hc
  obtain ⟨s2, e2, hh2, hd2⟩ :=
    client_to_desktop_remove_eq (s := s1) (by rw [hh1]; exact hun) h1c
  obtain ⟨s3, e3, hd3, hh3⟩ := client_to_desktop_prepare_eq (s := s2) s.current_desktop
    (by rw [hh2]; exact h1c)
  have hev : client_to_desktop fuel s i = .ok (retile fuel s3) := by
    unfold client_to_desktop
    simp only [hi, hcur, false_or, if_false, ht, desktop_index_natCast hA, bind, Except.bind,
      e1, e2, e3, pure, Except.pure, reduceCtorEq]
  have hhd : s3.head = (if A = [] then cc.next else s.head) := by
    rw [hd3, hd2, hd1]
    by_cases hA' : A = []
    · simp [hA', hhead.mpr hA']
    · have : ¬ (some c = s.head) := fun e => hA' (hhead.mp e)
      simp [hA', this]
  have hseg3 : Seg s3.heap none s3.head (A ++ B) none := by
    rw [hhd]
    refine Seg.frame ?_ hseg1
    intro x hx
    have hxc : x ≠ c := fun e => hcAB (e ▸ hx)
    rw [hh3, if_neg hxc, hh2]
  obtain ⟨rs, hrs⟩ := tile_returns (Seg.chain hseg3) hn hf
  exact ⟨s3, returned_ok hev hrs⟩

/-- On a target that holds clients, when the saved head of the active desktop is the
working head and current is the tail `c` of a well-formed list of two or more
clients, `client_to_desktop` returns: the walk to the tail ends at `c` itself. -/
theorem client_to_desktop_returns_tail {fuel : Nat} {s : WM} {i : Int} {t : Nat}
    {L : List Addr} {c : Addr}
    (hi : to_unsigned i ≠ s.current_desktop) (ht : desktop_index i = .ok t)
    (hA : s.current_desktop < 10) (hne : (s.desktops t).head ≠ none)
    (hsl : (s.desktops s.current_desktop).head = s.head)
    (hl : DList s.heap s.head (L ++ [c])) (hL : L ≠ []) (hcur : s.current = some c)
    (hf : (L ++ [c]).length ≤ fuel) :
    ∃ s', returned (client_to_desktop fuel s i) = .ok s' := by
  have htcd : s.current_desktop ≠ t := by
    rw [← desktop_index_to_unsigned ht]
    exact fun e => hi e.symm
  obtain ⟨m, -, hsc⟩ := Seg.append_iff.mp hl
  rw [Seg.step_iff] at hsc
  obtain ⟨-, cc, hc, -, hcn⟩ := hsc
  rw [Seg.empty_iff] at hcn
  have hwalk : last_client s.heap fuel (s.desktops s.current_desktop).head = .ok (some c) := by
    rw [hsl]
    exact last_client_seg hl (by simp only [List.length_append, List.length_cons] at hf; omega)
  obtain ⟨s1, e1, hd1, hh1⟩ := client_to_desktop_add_self hne htcd hwalk hc
  have h1c : s1.heap c = some ⟨some c, some c, cc.win⟩ := by rw [hh1]; simp
  obtain ⟨h1, hun, hx1⟩ := unlink_self h1c
  obtain ⟨s2, e2, hh2, hd2⟩ := client_to_desktop_remove_eq (s := s1) hun
    (by rw [hx1]; exact h1c)
  have hd2' : s2.head = s.head := by
    rw [hd2, ← hd1]
    split
    · rename_i e; exact e
    · rfl
  have h2c : s2.heap c = some ⟨some c, some c, cc.win⟩ := by rw [hh2, hx1]; exact h1c
  obtain ⟨s3, e3, hd3, hh3⟩ := client_to_desktop_prepare_eq s.current_desktop h2c
  have hev : client_to_desktop fuel s i = .ok (retile fuel s3) := by
    unfold client_to_desktop
    simp only [hi, hcur, false_or, if_false, ht, desktop_index_natCast hA, bind, Except.bind,
      e1, e2, e3, pure, Except.pure, reduceCtorEq]
  have hch : Chain s3.heap s3.head (L ++ [c]) := by
    rw [hd3, hd2']
    refine Chain.congr_next ?_ (Seg.chain hl)
    intro a _
    rw [hh3]
    by_cases hac : a = c
    · subst hac
      simp [hc, hcn]
    · rw [if_neg hac, hh2, hx1, hh1, if_neg hac]
  have hlen : (L ++ [c]).length ≠ 1 := by
    cases L with
    | nil => exact absurd rfl hL
    | cons a L' => simp
  obtain ⟨rs, hrs⟩ := tile_returns hch hlen hf
  exact ⟨s3, returned_ok hev hrs⟩

/-! ### Migration and the layout of the target -/

/-- C6 (counterexample): desktop 1 holds W3 and W4 and has master size 30 saved; every
call so far has returned. `client_to_desktop(1)` from desktop 0, whose master size is
70, returns with desktop 1's saved master size 70. -/
theorem client_to_desktop_overwrites_layout :
    WM.view <$> exec 4 startup [.add_window 1, .add_window 2, .change_desktop 1,
        .add_window 3, .add_window 4, .resizemaster 30, .change_desktop 0, .resizemaster 70]
      = .ok ⟨0, 70, 0, some 0, some 1,
          [some ⟨some 1, none, 1⟩, some ⟨none, some 0, 2⟩, some ⟨some 3, none, 3⟩,
            some ⟨none, some 2, 4⟩],
          [⟨0, 0, some 0, some 1⟩, ⟨30, 0, some 2, some 3⟩]⟩ ∧
    WM.view <$> exec 4 startup [.add_window 1, .add_window 2, .change_desktop 1,
        .add_window 3, .add_window 4, .resizemaster 30, .change_desktop 0, .resizemaster 70,
        .client_to_desktop 1]
      = .ok ⟨0, 70, 0, some 0, some 1,
          [some ⟨some 1, none, 1⟩, some ⟨none, none, 2⟩, some ⟨some 3, none, 3⟩,
            some ⟨none, some 2, 4⟩],
          [⟨0, 0, some 0, some 1⟩, ⟨70, 0, some 2, some 1⟩]⟩ := by
  refine ⟨?_, ?_⟩ <;> decide

/-- C6 (amended): a call `client_to_desktop(t)` that passes its guard (t is not the
active index and current is not `NULL`) stores the working master size and mode in
desktop t's slot whether or not that desktop held clients: every such call that
returns leaves them there. The call does return on an empty target, with current a
client of a well-formed list that leaves some number of clients other than one, and
on a target that holds clients, with the saved head of the active desktop the
working head and current the tail of a well-formed list of two or more clients. -/
theorem client_to_desktop_copies_layout (fuel : Nat) (s : WM) (i : Int)
    (hi : to_unsigned i ≠ s.current_desktop) (hc : s.current ≠ none) :
    (∀ s', returned (client_to_desktop fuel s i) = .ok s' →
      ∃ t, desktop_index i = .ok t ∧ (s'.desktops t).master_size = s.master_size ∧
        (s'.desktops t).mode = s.mode) ∧
    (∀ t A c B, desktop_index i = .ok t → s.current_desktop < 10 →
      (s.desktops t).head = none →
      DList s.heap s.head (A ++ c :: B) → s.current = some c →
      (A ++ B).length ≠ 1 → (A ++ B).length ≤ fuel →
      ∃ s', returned (client_to_desktop fuel s i) = .ok s' ∧
        (s'.desktops t).master_size = s.master_size ∧ (s'.desktops t).mode = s.mode) ∧
    (∀ t L c, desktop_index i = .ok t → s.current_desktop < 10 →
      (s.desktops t).head ≠ none →
      (s.desktops s.current_desktop).head = s.head →
      DList s.heap s.head (L ++ [c]) → L ≠ [] → s.current = some c →
      (L ++ [c]).length ≤ fuel →
      ∃ s', returned (client_to_desktop fuel s i) = .ok s' ∧
        (s'.desktops t).master_size = s.master_size ∧ (s'.desktops t).mode = s.mode) := by
  have copied : ∀ t s', desktop_index i = .ok t →
      returned (client_to_desktop fuel s i) = .ok s' →
      (s'.desktops t).master_size = s.master_size ∧ (s'.desktops t).mode = s.mode := by
    intro t s' ht hs'
    obtain ⟨t', ht', h1, h2⟩ := client_to_desktop_layout_of_returned hi hc hs'
    rw [ht] at ht'
    cases ht'
    exact ⟨h1, h2⟩
  refine ⟨fun s' hs' => client_to_desktop_layout_of_returned hi hc hs', ?_, ?_⟩
  · intro t A c B ht hA he hl hcur hn hf
    obtain ⟨s', hs'⟩ := client_to_desktop_returns_empty hi ht hA he hl hcur hn hf
    exact ⟨s', hs', copied t s' ht hs'⟩
  · intro t L c ht hA hne hsl hl hL hcur hf
    obtain ⟨s', hs'⟩ := client_to_desktop_returns_tail hi ht hA hne hsl hl hL hcur hf
    exact ⟨s', hs', copied t s' ht hs'⟩

theorem client_to_desktop_copies_layout_witness :
    (WM.view <$> exec 4 startup [.add_window 1, .add_window 2, .change_desktop 1,
        .add_window 3, .add_window 4, .resizemaster 30, .change_desktop 0, .resizemaster 70]
      = .ok two_desktops.view ∧
      (two_desktops.desktops 1).head = some 2 ∧
      (two_desktops.desktops 1).master_size = 30 ∧
      ∃ s', returned (client_to_desktop 4 two_desktops 1) = .ok s' ∧
        (s'.desktops 1).master_size = 70 ∧ (s'.desktops 1).mode = 0) ∧
    ((listed 3 50 1).desktops 1).head = none ∧
      ∃ s', returned (client_to_desktop 3 (listed 3 50 1) 1) = .ok s' ∧
        (s'.desktops 1).master_size = 50 ∧ (s'.desktops 1).mode = 1 := by
  refine ⟨⟨by decide, by decide, by decide, ?_⟩, by decide, ?_⟩
  · exact (client_to_desktop_copies_layout 4 two_desktops 1 (by decide) (by decide)).2.2
      1 [0] 1 (by decide) (by decide) (by decide) (by decide) (by decide) (by decide)
      (by decide) (by decide)
  · exact (client_to_desktop_copies_layout 3 (listed 3 50 1) 1 (by decide) (by decide)).2.1
      1 [0, 1] 2 [] (by decide) (by decide) (by decide) (by decide) (by decide) (by decide)
      (by decide)

/-! ### Startup -/

/-- C11: `setup()` copies the working master size and mode into the `DESKTOPS`
slots with an empty list and a `NULL` current, and never assigns the working master
size: from the zeroed statics every slot has master size 0, as has the active
desktop. -/
theorem setup_master_size_zero (DESKTOPS : Nat) (hD : DESKTOPS ≤ 10) :
    ∃ s', setup DESKTOPS startup = .ok s' ∧
      (∀ i, i < DESKTOPS → s'.desktops i = ⟨0, 0, none, none⟩) ∧
      s'.master_size = 0 ∧ s'.mode = 0 ∧ s'.head = none ∧ s'.current = none ∧
      s'.current_desktop = 0 := by
  refine ⟨_, setup_loop_spec DESKTOPS 0 startup (by omega), ?_, rfl, rfl, rfl, rfl, rfl⟩
  intro i hi
  simp [hi, startup]

theorem setup_master_size_zero_witness :
    (10 : Nat) ≤ 10 ∧ ∃ s', setup 10 startup = .ok s' ∧
      (∀ i, i < 10 → s'.desktops i = ⟨0, 0, none, none⟩) ∧ s'.master_size = 0 := by
  obtain ⟨s', h1, h2, h3, -⟩ := setup_master_size_zero 10 (le_refl _)
  exact ⟨le_refl _, s', h1, h2, h3⟩

/-! ### Removal and insertion -/

/-- The stores of `remove_window(w)` and `destroynotify` on a well-formed list with
distinct handles holding the client `c` with handle `w` between `A` and `B`: the list
becomes `A ++ B`, `c` is freed, current steps off `c`; the trailing `tile()` then
runs on that state. -/
theorem remove_window_unlinks (fuel : Nat) (s : WM) (A B : List Addr) (c : Addr) (w : Window)
    (hl : DList s.heap s.head (A ++ c :: B))
    (hcur : s.current = none ∨ ∃ a ∈ A ++ c :: B, s.current = some a)
    (hdist : ((A ++ c :: B).map (winOf s.heap)).Nodup)
    (hw : winOf s.heap c = w) (hf : (A ++ c :: B).length ≤ fuel) :
    ∃ o, remove_window fuel s w = .ok o ∧ destroynotify fuel s w = .ok o ∧
      o.tiled = tile fuel o.state ∧
      DList o.state.heap o.state.head (A ++ B) ∧
      o.state.head = (if A = [] then B.head? else s.head) ∧
      (∀ a ∈ A ++ B, winOf o.state.heap a = winOf s.heap a) ∧
      o.state.heap c = none ∧
      o.state.current = (if s.current = some c then (lastPtr none A <|> B.head?)
        else s.current) := by
  have hnd := DList.distinct hl
  have huniq : ∀ a ∈ A ++ c :: B, winOf s.heap a = w → a = c := by
    intro a ha hwa
    exact List.inj_on_of_nodup_map hdist ha (by simp) (by rw [hwa, hw])
  have hcA : c ∉ A := by
    simp only [List.nodup_append, List.nodup_cons, List.disjoint_cons_right] at hnd
    exact hnd.2.2.1
  have hcB : c ∉ B := by
    simp only [List.nodup_append, List.nodup_cons] at hnd
    exact hnd.2.1.1
  have hskipA : ∀ a ∈ A, winOf s.heap a ≠ w := by
    intro a ha hwa
    have := huniq a (by simp [ha]) hwa
    exact hcA (this ▸ ha)
  obtain ⟨h1, cc, hc, hun, h1c, ecp, ecn, hseg1, hfr1, hwin1⟩ := unlink_spec hl
  obtain ⟨m, hsA, hsc⟩ := Seg.append_iff.mp hl
  have hm : m = some c := (Seg.step_iff.mp hsc).1
  subst hm
  have hh : s.head ≠ none := by
    have := Seg.start_eq hl
    cases A <;> simp [firstPtr] at this <;> simp [this]
  have hhead : (some c = s.head) ↔ A = [] := by
    have := Seg.start_eq hl
    cases A with
    | nil => simp [firstPtr] at this; simp [this]
    | cons a A' =>
      simp [firstPtr] at this
      simp only [this, Option.some.injEq, reduceCtorEq, iff_false]
      intro e
      exact hcA (by simp [e])
  -- the first block
  have hstep : step_current s w = .ok { s with current :=
      (if s.current = some c then (lastPtr none A <|> B.head?) else s.current) } := by
    rcases hcur with hcn | ⟨a, ha, hca⟩
    · have e : (if s.current = some c then (lastPtr none A <|> B.head?) else s.current)
          = s.current := by simp [hcn]
      rw [e]
      have hs0 : step_current s w = .ok s := by
        simp only [step_current, hcn, if_true]
        rfl
      exact hs0
    · obtain ⟨ca, hcell⟩ := Seg.live hl ha
      by_cases hac : a = c
      · subst hac
        rw [hc] at hcell
        cases hcell
        have hwc : w = cc.win := by rw [← hw, winOf_eq hc]
        by_cases hp : cc.prev = none
        · by_cases hn : cc.next = none
          · simp [step_current, hca, load, hc, hwc, hp, hn, bind, Except.bind, ← ecp, ← ecn,
              pure, Except.pure]
          · simp [step_current, hca, load, hc, hwc, hp, hn, bind, Except.bind, ← ecp, ← ecn,
              pure, Except.pure]
        · simp only [step_current, hca, load, hc, hwc, hp, bind, Except.bind, ← ecp,
            pure, Except.pure, reduceCtorEq, if_false, if_true, ne_eq, not_false_eq_true]
          cases hcp : cc.prev with
          | none => exact absurd hcp hp
          | some p => rfl
      · have hne : w ≠ ca.win := by
          intro e
          have := huniq a ha (by rw [winOf_eq hcell, e])
          exact hac this
        have e : (if s.current = some c then (lastPtr none A <|> B.head?) else s.current)
            = s.current := by simp [hca, hac]
        rw [e]
        have hs0 : step_current s w = .ok s := by
          simp only [step_current, hca, load, hcell, hne, bind, Except.bind, if_false,
            reduceCtorEq]
          rfl
        exact hs0
  -- the scan
  have hfuel : A.length + 1 ≤ fuel := by
    simp only [List.length_append, List.length_cons] at hf
    omega
  obtain ⟨k, hk⟩ : ∃ k, fuel - A.length = k + 1 := ⟨fuel - A.length - 1, by omega⟩
  have hwc : cc.win = w := by rw [← hw, winOf_eq hc]
  have hscan : ∀ cur : Ptr, remove_scan w fuel { s with current := cur } s.head
      = .ok { s with current := cur, heap := h1.set c none,
                     head := (if A = [] then B.head? else s.head) } := by
    intro cur
    rw [remove_scan_skip (s := { s with current := cur }) hsA hskipA (by omega), hk]
    by_cases hA : A = []
    · have hhd : some c = s.head := hhead.mpr hA
      simp [remove_scan, load, hc, hwc, hun, h1c, hhd.symm, hA, ecn, bind, Except.bind, pure,
        Except.pure]
    · have hhd : ¬ (some c = s.head) := fun e => hA (hhead.mp e)
      have hhd' : ¬ (s.head = some c) := fun e => hhd e.symm
      simp [remove_scan, load, hc, hwc, hun, h1c, hhd, hhd', hA, bind, Except.bind, pure,
        Except.pure]
  have hev : remove_window fuel s w = .ok (retile fuel { s with
      heap := h1.set c none,
      head := (if A = [] then B.head? else s.head),
      current := (if s.current = some c then (lastPtr none A <|> B.head?)
        else s.current) }) := by
    simp only [remove_window, hh, if_false, hstep, hscan, bind, Except.bind, pure, Except.pure]
    by_cases hAB : A = [] ∧ B = []
    · obtain ⟨rfl, rfl⟩ := hAB
      have hcn : (if s.current = some c then (lastPtr none ([] : List Addr) <|> [].head?)
          else s.current) = none := by
        rcases hcur with hcn | ⟨a, ha, hca⟩
        · simp [hcn]
        · simp only [List.nil_append, List.mem_singleton] at ha
          subst ha
          simp [hca, lastPtr]
      rw [hcn]
      simp
    · have hne : (if A = [] then B.head? else s.head) ≠ none := by
        by_cases hA : A = []
        · have hB : B ≠ [] := fun e => hAB ⟨hA, e⟩
          cases B with
          | nil => exact absurd rfl hB
          | cons b B' => simp [hA]
        · simp [hA, hh]
      simp [hne]
  refine ⟨_, hev, by rw [destroynotify_eq]; exact hev, rfl, ?_, rfl, ?_, ?_, rfl⟩
  · show Seg (h1.set c none) none (if A = [] then B.head? else s.head) (A ++ B) none
    rw [← ecn]
    refine Seg.frame ?_ hseg1
    intro x hx
    have : x ≠ c := by
      rintro rfl
      rcases List.mem_append.mp hx with h' | h'
      · exact hcA h'
      · exact hcB h'
    simp [Heap.set, this]
  · intro a ha
    have hac : a ≠ c := by
      rintro rfl
      rcases List.mem_append.mp ha with h' | h'
      · exact hcA h'
      · exact hcB h'
    show winOf (h1.set c none) a = _
    rw [← hwin1 a]
    simp [winOf, Heap.set, hac]
  · show (h1.set c none) c = none
    simp [Heap.set]

/-- C12: on a well-formed list with distinct handles holding the client `c` with
handle `w`, between the clients `A` before it and `B` after it, `remove_window(w)`
returns with the list `A ++ B` (the others in their old order, with their windows)
and `c` freed; if `c` was current, current is the predecessor of `c` when there is
one, otherwise its successor, otherwise `NULL`, and if not, current is unchanged;
the destroy-notify handler does the same. That is so unless exactly one client is
left: then the trailing `tile()` of either call divides by zero and the call does
not return. -/
theorem remove_window_deletes (fuel : Nat) (s : WM) (A B : List Addr) (c : Addr) (w : Window)
    (hl : DList s.heap s.head (A ++ c :: B))
    (hcur : s.current = none ∨ ∃ a ∈ A ++ c :: B, s.current = some a)
    (hdist : ((A ++ c :: B).map (winOf s.heap)).Nodup)
    (hw : winOf s.heap c = w) (hf : (A ++ c :: B).length ≤ fuel) :
    ((A ++ B).length ≠ 1 →
      ∃ s', returned (remove_window fuel s w) = .ok s' ∧
        returned (destroynotify fuel s w) = .ok s' ∧
        DList s'.heap s'.head (A ++ B) ∧
        s'.head = (if A = [] then B.head? else s.head) ∧
        (∀ a ∈ A ++ B, winOf s'.heap a = winOf s.heap a) ∧
        s'.heap c = none ∧
        s'.current = (if s.current = some c then (lastPtr none A <|> B.head?)
          else s.current)) ∧
    ((A ++ B).length = 1 →
      returned (remove_window fuel s w) = .error .divByZero ∧
      returned (destroynotify fuel s w) = .error .divByZero) := by
  obtain ⟨o, h1, h2, ht, hl', hhd, hwin, hfree, hc'⟩ :=
    remove_window_unlinks fuel s A B c w hl hcur hdist hw hf
  have hf' : (A ++ B).length ≤ fuel := by
    simp only [List.length_append, List.length_cons] at hf ⊢
    omega
  constructor
  · intro hn
    obtain ⟨rs, hrs⟩ := tile_returns (Seg.chain hl') hn hf'
    rw [← ht] at hrs
    exact ⟨o.state, returned_ok h1 hrs, returned_ok h2 hrs, hl', hhd, hwin, hfree, hc'⟩
  · intro h1len
    obtain ⟨a, ha⟩ := List.length_eq_one.mp h1len
    rw [ha] at hl'
    have hfuel : 1 ≤ fuel := by
      simp only [List.length_append, List.length_cons] at hf
      omega
    have hdiv : tile fuel o.state = .error .divByZero := tile_single (Seg.chain hl') hfuel
    rw [← ht] at hdiv
    exact ⟨returned_error h1 hdiv, returned_error h2 hdiv⟩

theorem remove_window_deletes_witness :
    (DList (listed 2 50 0).heap (listed 2 50 0).head ([0] ++ 1 :: []) ∧
      returned (remove_window 2 (listed 2 50 0) 2) = .error .divByZero ∧
      returned (destroynotify 2 (listed 2 50 0) 2) = .error .divByZero) ∧
    (DList (listed 3 50 0).heap (listed 3 50 0).head ([0, 1] ++ 2 :: []) ∧
      ∃ s', returned (remove_window 3 (listed 3 50 0) 3) = .ok s' ∧
        DList s'.heap s'.head [0, 1] ∧ s'.heap 2 = none ∧ s'.current = some 1) := by
  refine ⟨⟨by decide, ?_⟩, ⟨by decide, ?_⟩⟩
  · exact (remove_window_deletes 2 (listed 2 50 0) [0] [] 1 2 (by decide)
      (Or.inr ⟨1, by decide, rfl⟩) (by decide) (by decide) (by decide)).2 (by decide)
  · obtain ⟨s', h1, -, h2, -, -, h3, h4⟩ :=
      (remove_window_deletes 3 (listed 3 50 0) [0, 1] [] 2 3 (by decide)
        (Or.inr ⟨2, by decide, rfl⟩) (by decide) (by decide) (by decide)).1 (by decide)
    exact ⟨s', h1, h2, h3, h4.trans (by decide)⟩

/-- The stores of `remove_window(w)` and `destroynotify` when no client of the list
carries `w`: the state is left as it is, and on a list that is not empty the trailing
`tile()` runs on it. -/
theorem remove_window_absent_stores (fuel : Nat) (s : WM) (L : List Addr) (w : Window)
    (hl : DList s.heap s.head L)
    (hcur : s.current = none ∨ ∃ a ∈ L, s.current = some a)
    (hw : ∀ a ∈ L, winOf s.heap a ≠ w) (hf : L.length ≤ fuel) :
    ∃ o, remove_window fuel s w = .ok o ∧ destroynotify fuel s w = .ok o ∧ o.state = s ∧
      o.tiled = (if s.head = none then .ok [] else tile fuel s) := by
  have main : ∃ o, remove_window fuel s w = .ok o ∧ o.state = s ∧
      o.tiled = (if s.head = none then .ok [] else tile fuel s) := by
    by_cases hh : s.head = none
    · exact ⟨⟨s, .ok []⟩, by simp [remove_window, hh]; rfl, rfl, by simp [hh]⟩
    · have hstep : step_current s w = .ok s := by
        rcases hcur with hc | ⟨a, ha, hc⟩
        · simp [step_current, hc]; rfl
        · obtain ⟨ca, hca⟩ := Seg.live hl ha
          have hne : w ≠ ca.win := by
            have := hw a ha
            rw [winOf_eq hca] at this
            exact fun e => this e.symm
          simp [step_current, hc, load, hca, hne, bind, Except.bind]
          rfl
      have hscan : remove_scan w fuel s s.head = .ok s := by
        rw [remove_scan_skip hl hw hf, remove_scan_null]
      refine ⟨retile fuel s, ?_, rfl, by simp [hh, retile]⟩
      simp [remove_window, hh, hstep, hscan, bind, Except.bind, pure, Except.pure]
  obtain ⟨o, h1, h2, h3⟩ := main
  exact ⟨o, h1, by rw [destroynotify_eq]; exact h1, h2, h3⟩

/-- C13: when no client of the active list carries the handle `w`, `remove_window(w)`
and the destroy-notify handler for `w` return with the whole engine state, heap
included, as it was, unless the list holds exactly one client: then the trailing
`tile()` of either call divides by zero and the call does not return. -/
theorem remove_window_absent (fuel : Nat) (s : WM) (L : List Addr) (w : Window)
    (hl : DList s.heap s.head L)
    (hcur : s.current = none ∨ ∃ a ∈ L, s.current = some a)
    (hw : ∀ a ∈ L, winOf s.heap a ≠ w) (hf : L.length ≤ fuel) :
    (L.length ≠ 1 → returned (remove_window fuel s w) = .ok s ∧
      returned (destroynotify fuel s w) = .ok s) ∧
    (L.length = 1 → returned (remove_window fuel s w) = .error .divByZero ∧
      returned (destroynotify fuel s w) = .error .divByZero) := by
  obtain ⟨o, h1, h2, h3, h4⟩ := remove_window_absent_stores fuel s L w hl hcur hw hf
  constructor
  · intro hn
    obtain ⟨rs, hrs⟩ : ∃ rs, o.tiled = .ok rs := by
      by_cases hh : s.head = none
      · exact ⟨[], by simp [h4, hh]⟩
      · obtain ⟨rs, hrs⟩ := tile_returns (Seg.chain hl) hn hf
        exact ⟨rs, by simp [h4, hh, hrs]⟩
    have e1 := returned_ok h1 hrs
    have e2 := returned_ok h2 hrs
    rw [h3] at e1 e2
    exact ⟨e1, e2⟩
  · intro h1len
    match L, hl, hf, h1len with
    | [a], hl, hf, _ =>
      have hh : s.head ≠ none := by
        have := Seg.start_eq hl
        simp [firstPtr] at this
        simp [this]
      have ht : o.tiled = .error .divByZero := by
        rw [h4, if_neg hh]
        exact tile_single (Seg.chain hl) (by simpa using hf)
      exact ⟨returned_error h1 ht, returned_error h2 ht⟩

theorem remove_window_absent_witness :
    (DList (listed 1 50 0).heap (listed 1 50 0).head [0] ∧
      returned (remove_window 1 (listed 1 50 0) 9) = .error .divByZero ∧
      returned (destroynotify 1 (listed 1 50 0) 9) = .error .divByZero) ∧
    (DList (listed 2 50 0).heap (listed 2 50 0).head [0, 1] ∧
      returned (remove_window 2 (listed 2 50 0) 9) = .ok (listed 2 50 0)) :=
  ⟨⟨by decide,
    (remove_window_absent 1 (listed 1 50 0) [0] 9 (by decide)
      (Or.inr ⟨0, by decide, rfl⟩) (by decide) (by decide)).2 rfl⟩,
   ⟨by decide,
    ((remove_window_absent 2 (listed 2 50 0) [0, 1] 9 (by decide)
      (Or.inr ⟨1, by decide, rfl⟩) (by decide) (by decide)).1 (by decide)).1⟩⟩

/-- C14: on a well-formed list `L`, with the cell `calloc` hands out not in use,
`add_window(w)` yields `L` followed by one new client with handle `w`: the clients
of `L` keep their order and their windows, the head is unchanged when `L` is not
empty, and current is the new client. -/
theorem add_window_appends (fuel : Nat) (s : WM) (L : List Addr) (w : Window)
    (hl : DList s.heap s.head L) (hfresh : s.heap s.brk = none) (hf : L.length ≤ fuel) :
    ∃ s', add_window fuel s w = .ok s' ∧
      DList s'.heap s'.head (L ++ [s.brk]) ∧ s.brk ∉ L ∧
      winOf s'.heap s.brk = w ∧ (∀ a ∈ L, winOf s'.heap a = winOf s.heap a) ∧
      s'.current = some s.brk ∧ (L ≠ [] → s'.head = s.head) := by
  have hnot : s.brk ∉ L := by
    intro hm
    obtain ⟨c, hc⟩ := Seg.live hl hm
    rw [hfresh] at hc
    cases hc
  rcases list_nil_or_snoc L with rfl | ⟨A, t, rfl⟩
  · have hh : s.head = none := by simpa [DList, Seg.empty_iff] using hl
    have hev : add_window fuel s w = .ok { s with
        heap := (s.heap.set s.brk (some ⟨none, none, 0⟩)).set s.brk (some ⟨none, none, w⟩),
        brk := s.brk + 1, head := some s.brk, current := some s.brk } := by
      simp [add_window, calloc, hh]
      rfl
    refine ⟨_, hev, ?_, hnot, ?_, ?_, rfl, ?_⟩
    · simp [DList, Seg.step_iff, Seg.empty_iff, Heap.set]
    · simp [winOf, Heap.set]
    · simp
    · simp
  · have hlive := Seg.live hl (a := t) (by simp)
    obtain ⟨ct, ht⟩ := hlive
    have htb : t ≠ s.brk := by
      intro e
      rw [e, hfresh] at ht
      cases ht
    have hAb : ∀ x ∈ A, x ≠ s.brk := fun x hx e => hnot (by simp [← e, hx])
    have hh : s.head ≠ none := by
      have := Seg.start_eq hl
      cases A <;> simp [firstPtr] at this <;> simp [this]
    have hl' : Seg (s.heap.set s.brk (some ⟨none, none, 0⟩)) none s.head (A ++ [t]) none :=
      Seg.frame (fun x hx => by simp [Heap.set, ne_of_mem_of_not_mem hx hnot]) hl
    have hwalk : last_client _ fuel s.head = .ok (some t) :=
      last_client_seg hl' (by simp at hf; omega)
    have hev : add_window fuel s w = .ok { s with
        heap := ((s.heap.set s.brk (some ⟨none, none, 0⟩)).set s.brk
          (some ⟨none, some t, w⟩)).set t (some { ct with next := some s.brk }),
        brk := s.brk + 1, current := some s.brk } := by
      simp [add_window, calloc, hh, hwalk, store_next, load, Heap.set, htb, ht, bind,
        Except.bind, pure, Except.pure]
    refine ⟨_, hev, ?_, hnot, ?_, ?_, rfl, fun _ => rfl⟩
    · show Seg _ none s.head (A ++ [t] ++ [s.brk]) none
      rw [List.append_assoc]
      exact Seg.insert_back (w := w) hl ht (by simp [Heap.set, Ne.symm htb])
        (by simp [Heap.set]) (fun x hx => by simp [Heap.set, hAb x hx,
          ne_of_mem_of_not_mem hx (show t ∉ A from by
            have := DList.distinct hl
            simp [List.nodup_append] at this
            exact fun hm => this.2 hm)])
    · simp [winOf, Heap.set, Ne.symm htb]
    · intro a ha
      by_cases hat : a = t
      · subst hat; simp [winOf, Heap.set, ht]
      · have hab : a ≠ s.brk := fun e => hnot (e ▸ ha)
        simp [winOf, Heap.set, hat, hab]

theorem add_window_appends_witness :
    DList (listed 2 50 0).heap (listed 2 50 0).head [0, 1] ∧
    ∃ s', add_window 2 (listed 2 50 0) 9 = .ok s' ∧
      DList s'.heap s'.head [0, 1, 2] ∧ winOf s'.heap 2 = 9 ∧ s'.current = some 2 ∧
      s'.head = some 0 := by
  refine ⟨by decide, ?_⟩
  obtain ⟨s', h1, h2, -, h3, -, h4, h5⟩ :=
    add_window_appends 2 (listed 2 50 0) [0, 1] 9 (by decide) (by decide) (by decide)
  exact ⟨s', h1, h2, h3, h4, h5 (by decide)⟩

/-! ### Reordering -/

/-- C15: when current `c` sits right after `p`, `move_up()` yields the same list with
`p` and `c` exchanged, every other position, the windows and the links as they
were, and current still `c`; the list `[A, B]` with current `B` becomes `[B, A]` and
the trailing `tile()` gives `B` the master rectangle. When current is the head,
`move_up()` leaves the state unchanged. In both cases the call returns, its
trailing `tile()` included. -/
theorem move_up_exchanges (fuel : Nat) (s : WM) (A B : List Addr) (p c : Addr)
    (hl : DList s.heap s.head (A ++ p :: c :: B)) (hcur : s.current = some c) :
    (∃ o, move_up fuel s = .ok o ∧
      DList o.state.heap o.state.head (A ++ c :: p :: B) ∧
      o.state.current = some c ∧
      (∀ x, winOf o.state.heap x = winOf s.heap x) ∧
      (A = [] → B = [] → 2 ≤ fuel →
        o.tiled = .ok (⟨winOf s.heap c, 0, 0,
            (if s.mode = 0 then Int.tdiv (800 * s.master_size) 100 else 800),
            (if s.mode = 1 then Int.tdiv (600 * s.master_size) 100 else 600)⟩ ::
          spec_rects s.master_size s.mode 2 1 [winOf s.heap p])) ∧
      ((A ++ p :: c :: B).length ≤ fuel → returned (move_up fuel s) = .ok o.state)) ∧
    (∀ (t : WM) (a : Addr) (L : List Addr), DList t.heap t.head (a :: L) →
      t.current = some a → ∃ o, move_up fuel t = .ok o ∧ o.state = t ∧
        ((a :: L).length ≤ fuel → returned (move_up fuel t) = .ok t)) := by
  constructor
  · obtain ⟨o, hev, htl, hl1, hst, hw, -⟩ := move_up_swap fuel s A B p c hl hcur
    have hcur1 : o.state.current = some c := by rw [hst]; exact hcur
    refine ⟨o, hev, hl1, hcur1, hw, ?_, ?_⟩
    · rintro rfl rfl hf
      have hms : o.state.master_size = s.master_size := by rw [hst]
      have hmo : o.state.mode = s.mode := by rw [hst]
      rw [htl, tile_eq o.state c [p] fuel (Seg.chain hl1) (by simp) (by simpa using hf)]
      simp [hms, hmo, hw]
    · intro hf
      have hlen : (A ++ c :: p :: B).length ≤ fuel := by
        simp only [List.length_append, List.length_cons] at hf ⊢
        omega
      obtain ⟨rs, hrs⟩ := tile_returns (Seg.chain hl1)
        (by simp only [List.length_append, List.length_cons]; omega) hlen
      rw [← htl] at hrs
      exact returned_ok hev hrs
  · intro t a L hl' hc
    have hch := Seg.chain hl'
    rw [DList, Seg.step_iff] at hl'
    obtain ⟨hhd, ca, ha, ep, hrest⟩ := hl'
    by_cases hn : ca.next = none
    · have hev : move_up fuel t = .ok ⟨t, .ok []⟩ := by
        simp [move_up, hc, hhd, get_next, load, ha, hn, bind, Except.bind, pure, Except.pure]
      exact ⟨⟨t, .ok []⟩, hev, rfl, fun _ => returned_ok hev rfl⟩
    · have hev : move_up fuel t = .ok (retile fuel t) := by
        simp [move_up, hc, hhd, get_next, get_prev, load, ha, hn, ep, bind, Except.bind, pure,
          Except.pure]
      refine ⟨retile fuel t, hev, rfl, fun hf => ?_⟩
      have hL : (a :: L).length ≠ 1 := by
        cases L with
        | nil => exact absurd (Seg.empty_iff.mp hrest) hn
        | cons b L' => simp
      obtain ⟨rs, hrs⟩ := tile_returns hch hL hf
      exact returned_ok hev hrs

theorem move_up_exchanges_witness :
    DList (listed 2 50 0).heap (listed 2 50 0).head [0, 1] ∧
    (listed 2 50 0).current = some 1 ∧
    ∃ o, move_up 2 (listed 2 50 0) = .ok o ∧
      DList o.state.heap o.state.head [1, 0] ∧ o.state.current = some 1 ∧
      o.tiled = .ok [⟨2, 0, 0, 400, 600⟩, ⟨1, 400, 0, 400, 600⟩] ∧
      returned (move_up 2 (listed 2 50 0)) = .ok o.state := by
  refine ⟨by decide, rfl, ?_⟩
  obtain ⟨o, h1, h2, h3, -, h4, h5⟩ :=
    (move_up_exchanges 2 (listed 2 50 0) [] [] 0 1 (by decide) rfl).1
  exact ⟨o, h1, h2, h3, (h4 rfl rfl (le_refl _)).trans (by decide), h5 (by decide)⟩

/-- C16: when current `c` is not the head, `swap_master()` yields the list `c`
followed by the old list without `c` (the former head second, the others in their
old order, the windows and the links consistent) and current is still `c`. When the
list is empty, current is `NULL` or current is the head (as in a list of one
client), `swap_master()` leaves the state unchanged. In both cases the call returns,
its trailing `tile()` included. -/
theorem swap_master_promotes (fuel : Nat) (s : WM) (A B : List Addr) (c : Addr)
    (hl : DList s.heap s.head (A ++ c :: B)) (hA : A ≠ []) (hcur : s.current = some c) :
    (∃ o, swap_master fuel s = .ok o ∧
      DList o.state.heap o.state.head (c :: (A ++ B)) ∧
      o.state.current = some c ∧
      (∀ x, winOf o.state.heap x = winOf s.heap x) ∧
      ((A ++ c :: B).length ≤ fuel → returned (swap_master fuel s) = .ok o.state)) ∧
    (∀ t : WM, (t.head = none ∨ t.current = none ∨ t.head = t.current) →
      ∃ o, swap_master fuel t = .ok o ∧ o.state = t ∧
        returned (swap_master fuel t) = .ok t) := by
  constructor
  · have hnd := DList.distinct hl
    obtain ⟨h1, cc, hc, hun, h1c, ecp, ecn, hseg1, hfr1, hwin1⟩ := unlink_spec hl
    simp only [hA, if_false] at hseg1
    match A, hA with
    | a0 :: A', _ =>
      simp only [List.cons_append, List.nodup_cons, List.mem_append, List.mem_cons, not_or,
        List.nodup_append, List.disjoint_cons_right] at hnd
      obtain ⟨⟨ha0A, ha0c, ha0B⟩, -, ⟨hcB, -⟩, hcA', -⟩ := hnd
      have hca0 : c ≠ a0 := Ne.symm ha0c
      have hhd : s.head = some a0 := by
        have := Seg.start_eq hl
        simpa [firstPtr] using this
      rw [hhd, List.cons_append] at hseg1
      have hs1 := hseg1
      rw [Seg.step_iff] at hs1
      obtain ⟨-, ca1, ha1, -, -⟩ := hs1
      have hev : swap_master fuel s = .ok (retile fuel { s with
          heap := ((h1.set c (some { cc with next := some a0 })).set c
            (some { cc with next := some a0, prev := none })).set a0
            (some { ca1 with prev := some c }),
          head := some c }) := by
        simp [swap_master, hhd, hcur, hun, store_next, store_prev, load, h1c, ha1, Heap.set,
          hca0, ha0c, bind, Except.bind, pure, Except.pure]
      have hfront : Seg (((h1.set c (some { cc with next := some a0 })).set c
            (some { cc with next := some a0, prev := none })).set a0
            (some { ca1 with prev := some c })) none (some c) (c :: a0 :: (A' ++ B)) none := by
        exact Seg.insert_front (w := cc.win) hseg1 ha1
          (by simp [retile, Heap.set, hca0])
          (by simp [retile, Heap.set])
          (fun x hx => by
            have hxa : x ≠ a0 := by
              rintro rfl
              rcases List.mem_append.mp hx with h' | h'
              · exact ha0A h'
              · exact ha0B h'
            have hxc : x ≠ c := by
              rintro rfl
              rcases List.mem_append.mp hx with h' | h'
              · exact hcA' h'
              · exact hcB h'
            simp [retile, Heap.set, hxa, hxc])
      refine ⟨_, hev, hfront, hcur, ?_, ?_⟩
      · intro x
        show winOf (((h1.set c _).set c _).set a0 _) x = _
        rw [winOf_set _ _ _ (by simp [winOf, Heap.set, ha0c, ha1]),
          winOf_set _ _ _ (by simp [winOf, Heap.set]),
          winOf_set _ _ _ (by simp [winOf, h1c]), hwin1]
      · intro hf
        have hlen : (c :: a0 :: (A' ++ B)).length ≤ fuel := by
          simp only [List.cons_append, List.length_append, List.length_cons] at hf ⊢
          omega
        obtain ⟨rs, hrs⟩ := tile_returns (s := { s with
            heap := ((h1.set c (some { cc with next := some a0 })).set c
              (some { cc with next := some a0, prev := none })).set a0
              (some { ca1 with prev := some c }),
            head := some c }) (Seg.chain hfront) (by simp) hlen
        exact returned_ok hev hrs
  · intro t ht
    have hev : swap_master fuel t = .ok ⟨t, .ok []⟩ := by
      simp [swap_master, ht]; rfl
    exact ⟨⟨t, .ok []⟩, hev, rfl, returned_ok hev rfl⟩

theorem swap_master_promotes_witness :
    DList (listed 3 50 0).heap (listed 3 50 0).head ([0, 1] ++ 2 :: []) ∧
    ∃ o, swap_master 3 (listed 3 50 0) = .ok o ∧
      DList o.state.heap o.state.head [2, 0, 1] ∧ o.state.current = some 2 ∧
      returned (swap_master 3 (listed 3 50 0)) = .ok o.state := by
  refine ⟨by decide, ?_⟩
  obtain ⟨o, h1, h2, h3, -, h4⟩ :=
    (swap_master_promotes 3 (listed 3 50 0) [0, 1] [] 2 (by decide) (by decide) rfl).1
  exact ⟨o, h1, h2, h3, h4 (by decide)⟩

/-! ### Focus -/

/-- The stores of `next_win()` and `prev_win()` on a well-formed list with current
`c` between `A` and `B`: only current changes, to the successor of `c` or the head,
resp. to the predecessor of `c` or the tail; the trailing `tile()` then runs on that
state. -/
theorem focus_moves_current (fuel : Nat) (s : WM) (A B : List Addr) (c : Addr)
    (hl : DList s.heap s.head (A ++ c :: B)) (hcur : s.current = some c)
    (hf : (A ++ c :: B).length ≤ fuel) :
    (∃ o, next_win fuel s = .ok o ∧ o.tiled = tile fuel o.state ∧
      o.state = { s with current := firstPtr B s.head }) ∧
    (∃ o, prev_win fuel s = .ok o ∧ o.tiled = tile fuel o.state ∧
      o.state = { s with current :=
        (if A = [] then lastPtr none (A ++ c :: B) else lastPtr none A) }) := by
  obtain ⟨m, hsA, hsc⟩ := Seg.append_iff.mp hl
  rw [Seg.step_iff] at hsc
  obtain ⟨-, cc, hc, ecp, hsB⟩ := hsc
  have ecn : cc.next = firstPtr B none := Seg.start_eq hsB
  constructor
  · cases B with
    | nil =>
      simp only [firstPtr] at ecn ⊢
      exact ⟨retile fuel { s with current := s.head }, by
        simp [next_win, hcur, get_next, load, hc, ecn, bind, Except.bind, pure, Except.pure],
        rfl, rfl⟩
    | cons b B' =>
      simp only [firstPtr] at ecn ⊢
      exact ⟨retile fuel { s with current := some b }, by
        simp [next_win, hcur, get_next, load, hc, ecn, bind, Except.bind, pure, Except.pure],
        rfl, rfl⟩
  · rcases list_nil_or_snoc A with rfl | ⟨A0, a, rfl⟩
    · simp only [lastPtr] at ecp
      obtain ⟨L0, t, hL⟩ : ∃ L0 t, c :: B = L0 ++ [t] := by
        rcases list_nil_or_snoc (c :: B) with h' | h'
        · simp at h'
        · exact h'
      have hlen : L0.length ≤ fuel := by
        have := congrArg List.length hL
        simp at this hf
        omega
      have hl2 : Seg s.heap none s.head (L0 ++ [t]) none := by
        rw [← hL]; simpa [DList] using hl
      have hwalk := last_client_seg hl2 hlen
      have hlast : lastPtr none ([] ++ c :: B) = some t := by
        rw [List.nil_append, hL, lastPtr_concat]
      simp only [if_true, hlast]
      exact ⟨retile fuel { s with current := some t }, by
        simp [prev_win, hcur, get_prev, load, hc, ecp, hwalk, bind, Except.bind, pure,
          Except.pure], rfl, rfl⟩
    · rw [lastPtr_concat] at ecp
      have hne : A0 ++ [a] ≠ [] := by simp
      simp only [hne, if_false, lastPtr_concat]
      exact ⟨retile fuel { s with current := some a }, by
        simp [prev_win, hcur, get_prev, load, hc, ecp, bind, Except.bind, pure, Except.pure],
        rfl, rfl⟩

/-- C17: on a well-formed list of two or more clients with current `c` between the
clients `A` and `B`, `next_win()` returns with current at the successor of `c`, or at
the head when `c` is the tail, and `prev_win()` returns with current at the
predecessor of `c`, or at the tail when `c` is the head; nothing else of the state
changes. On a list of one client the trailing `tile()` of either call divides by
zero and the call does not return. -/
theorem focus_steps_and_wraps (fuel : Nat) (s : WM) (A B : List Addr) (c : Addr)
    (hl : DList s.heap s.head (A ++ c :: B)) (hcur : s.current = some c)
    (hf : (A ++ c :: B).length ≤ fuel) :
    ((A ++ c :: B).length ≠ 1 →
      returned (next_win fuel s) = .ok { s with current := firstPtr B s.head } ∧
      returned (prev_win fuel s) = .ok { s with current :=
        (if A = [] then lastPtr none (A ++ c :: B) else lastPtr none A) }) ∧
    ((A ++ c :: B).length = 1 →
      returned (next_win fuel s) = .error .divByZero ∧
      returned (prev_win fuel s) = .error .divByZero) := by
  obtain ⟨⟨o₁, h1, ht1, hs1⟩, ⟨o₂, h2, ht2, hs2⟩⟩ :=
    focus_moves_current fuel s A B c hl hcur hf
  have hc1 : Chain o₁.state.heap o₁.state.head (A ++ c :: B) := by
    rw [hs1]; exact Seg.chain hl
  have hc2 : Chain o₂.state.heap o₂.state.head (A ++ c :: B) := by
    rw [hs2]; exact Seg.chain hl
  constructor
  · intro hn
    obtain ⟨rs1, hrs1⟩ := tile_returns hc1 hn hf
    obtain ⟨rs2, hrs2⟩ := tile_returns hc2 hn hf
    rw [← ht1] at hrs1
    rw [← ht2] at hrs2
    have e1 := returned_ok h1 hrs1
    have e2 := returned_ok h2 hrs2
    rw [hs1] at e1
    rw [hs2] at e2
    exact ⟨e1, e2⟩
  · intro h1len
    obtain ⟨a, ha⟩ := List.length_eq_one.mp h1len
    have hfuel : 1 ≤ fuel := by
      simp only [List.length_append, List.length_cons] at hf
      omega
    rw [ha] at hc1 hc2
    have hd1 : tile fuel o₁.state = .error .divByZero := tile_single hc1 hfuel
    have hd2 : tile fuel o₂.state = .error .divByZero := tile_single hc2 hfuel
    rw [← ht1] at hd1
    rw [← ht2] at hd2
    exact ⟨returned_error h1 hd1, returned_error h2 hd2⟩

theorem focus_steps_and_wraps_witness :
    (DList (listed 1 50 0).heap (listed 1 50 0).head ([] ++ 0 :: []) ∧
      returned (next_win 1 (listed 1 50 0)) = .error .divByZero ∧
      returned (prev_win 1 (listed 1 50 0)) = .error .divByZero) ∧
    (DList (listed 3 50 0).heap (listed 3 50 0).head ([0, 1] ++ 2 :: []) ∧
      returned (next_win 3 (listed 3 50 0)) = .ok { listed 3 50 0 with current := some 0 } ∧
      returned (prev_win 3 (listed 3 50 0)) = .ok { listed 3 50 0 with current := some 1 }) :=
  ⟨⟨by decide,
    (focus_steps_and_wraps 1 (listed 1 50 0) [] [] 0 (by decide) rfl (by decide)).2
      (by decide)⟩,
   ⟨by decide,
    (focus_steps_and_wraps 3 (listed 3 50 0) [0, 1] [] 2 (by decide) rfl (by decide)).1
      (by decide)⟩⟩

/-- C18: on an empty list, with head and current `NULL`, `next_win()` returns and
leaves the state as it is, and `prev_win()` dereferences `NULL`: its loop
`for(current=head;current->next;...)` reads `head->next`. -/
theorem prev_win_empty_null_deref (fuel : Nat) (s : WM) (hh : s.head = none)
    (hc : s.current = none) :
    (∃ o, next_win fuel s = .ok o ∧ o.state = s ∧ o.tiled = .ok []) ∧
    prev_win fuel s = .error .nullDeref := by
  constructor
  · refine ⟨retile fuel { s with current := s.head }, by simp [next_win, hc]; rfl, ?_, ?_⟩
    · show ({ s with current := s.head } : WM) = s
      cases s
      simp only at hh hc
      subst hh hc
      rfl
    · show tile fuel { s with current := s.head } = .ok []
      cases fuel <;> simp [tile, tile_count, hh, bind, Except.bind, pure, Except.pure]
  · cases fuel <;>
      simp [prev_win, hc, hh, last_client, load, bind, Except.bind]

theorem prev_win_empty_null_deref_witness :
    startup.head = none ∧ startup.current = none ∧
    prev_win 4 startup = .error .nullDeref :=
  ⟨rfl, rfl, (prev_win_empty_null_deref 4 startup rfl rfl).2⟩

/-! ### Key dispatch -/

/-- C19: `keypress` invokes, in table order, the operation of every entry of the
table whose key symbol is that of the event and whose clean-masked modifiers are
those of the event, each with its argument; entries bound to the same chord all
fire. When no entry matches, nothing is invoked and the state is returned as it
was. -/
theorem keypress_invokes_all_matching {α σ : Type} (CLEANMASK : Nat → Nat)
    (XKeycodeToKeysym : Nat → Nat) (keys : List (Key α σ)) (e : XKeyEvent) (s : σ) :
    keypress CLEANMASK XKeycodeToKeysym keys e s
      = invoke_all
          (bound_ops (matching CLEANMASK (XKeycodeToKeysym (e.keycode % 256)) e.state keys)) s ∧
    (matching CLEANMASK (XKeycodeToKeysym (e.keycode % 256)) e.state keys = [] →
      keypress CLEANMASK XKeycodeToKeysym keys e s = .ok s) := by
  have h := keypress_loop_eq CLEANMASK (XKeycodeToKeysym (e.keycode % 256)) e.state keys s
  refine ⟨h, fun hnone => ?_⟩
  unfold keypress
  rw [h, hnone]
  rfl

theorem keypress_invokes_all_matching_witness :
    keypress (fun m => m % 16) id logging_keys ⟨100, 24⟩ [] = .ok [1, 3] ∧
    matching (fun m => m % 16) (id (102 % 256)) 24 logging_keys = [] ∧
    keypress (fun m => m % 16) id logging_keys ⟨102, 24⟩ [7] = .ok [7] :=
  ⟨(keypress_invokes_all_matching (fun m => m % 16) id logging_keys ⟨100, 24⟩ []).1.trans rfl,
   rfl,
   (keypress_invokes_all_matching (fun m => m % 16) id logging_keys ⟨102, 24⟩ [7]).2 rfl⟩

/-! ### Demote and promote -/

/-- C20: when current `c` has a successor `n`, `move_down()` exchanges the two (the
other positions, the links and the windows stay, current is still `c`), and
`move_up()` after it restores the engine state, heap included, exactly. Both calls
return, their trailing `tile()` included. -/
theorem move_down_then_move_up (fuel : Nat) (s : WM) (A B : List Addr) (c n : Addr)
    (hl : DList s.heap s.head (A ++ c :: n :: B)) (hcur : s.current = some c) :
    ∃ o₁ o₂, move_down fuel s = .ok o₁ ∧
      DList o₁.state.heap o₁.state.head (A ++ n :: c :: B) ∧
      o₁.state.current = some c ∧
      (∀ x, winOf o₁.state.heap x = winOf s.heap x) ∧
      move_up fuel o₁.state = .ok o₂ ∧
      DList o₂.state.heap o₂.state.head (A ++ c :: n :: B) ∧
      o₂.state = s ∧
      ((A ++ c :: n :: B).length ≤ fuel →
        returned (move_down fuel s) = .ok o₁.state ∧
        returned (move_up fuel o₁.state) = .ok s) := by
  obtain ⟨o₁, h1, ht1, hl1, hst1, hw1, hf1⟩ := move_down_swap fuel s A B c n hl hcur
  have hcur1 : o₁.state.current = some c := by rw [hst1]; exact hcur
  obtain ⟨o₂, h2, ht2, hl2, hst2, hw2, hf2⟩ := move_up_swap fuel o₁.state A B n c hl1 hcur1
  have hmem : ∀ x, x ∉ A ++ c :: n :: B → x ∉ A ++ n :: c :: B := by
    intro x hx
    simp only [List.mem_append, List.mem_cons, not_or] at hx ⊢
    exact ⟨hx.1, hx.2.2.1, hx.2.1, hx.2.2.2⟩
  obtain ⟨eh, ehd⟩ := DList.heap_ext hl hl2 (fun x => by rw [hw2, hw1])
    (fun x hx => by rw [hf2 x (hmem x hx), hf1 x hx])
  have hback : o₂.state = s := by rw [hst2, hst1, eh, ehd]
  refine ⟨o₁, o₂, h1, hl1, hcur1, hw1, h2, hl2, hback, fun hf => ?_⟩
  have hlen : (A ++ n :: c :: B).length ≤ fuel := by
    simp only [List.length_append, List.length_cons] at hf ⊢
    omega
  obtain ⟨rs1, hrs1⟩ := tile_returns (Seg.chain hl1)
    (by simp only [List.length_append, List.length_cons]; omega) hlen
  obtain ⟨rs2, hrs2⟩ := tile_returns (Seg.chain hl2)
    (by simp only [List.length_append, List.length_cons]; omega) hf
  rw [← ht1] at hrs1
  rw [← ht2] at hrs2
  have e2 := returned_ok h2 hrs2
  rw [hback] at e2
  exact ⟨returned_ok h1 hrs1, e2⟩

theorem move_down_then_move_up_witness :
    DList { listed 3 50 0 with current := some 0 }.heap
      { listed 3 50 0 with current := some 0 }.head ([] ++ 0 :: 1 :: [2]) ∧
    ∃ o₁ o₂, move_down 3 { listed 3 50 0 with current := some 0 } = .ok o₁ ∧
      DList o₁.state.heap o₁.state.head [1, 0, 2] ∧ o₁.state.current = some 0 ∧
      move_up 3 o₁.state = .ok o₂ ∧
      o₂.state = { listed 3 50 0 with current := some 0 } ∧
      returned (move_down 3 { listed 3 50 0 with current := some 0 }) = .ok o₁.state ∧
      returned (move_up 3 o₁.state) = .ok { listed 3 50 0 with current := some 0 } := by
  refine ⟨by decide, ?_⟩
  obtain ⟨o₁, o₂, h1, h2, h3, -, h4, -, h5, h6⟩ :=
    move_down_then_move_up 3 { listed 3 50 0 with current := some 0 } [] [2] 0 1
      (by decide) rfl
  exact ⟨o₁, o₂, h1, h2, h3, h4, h5, (h6 (by decide)).1, (h6 (by decide)).2⟩

end TigerWM
